import Mathlib

/-!
# Verification of the Imprint document diff engine (`src/lib/editor/diff.ts`)

This file gives a shallow embedding of the diff/patch/annotate engine and proves
the specification's claims about it.

Modelling conventions:

* `PNode` mirrors the ProseMirror node values the engine manipulates: a `type`
  name, an attribute map (ordered association list of scalar values), an ordered
  mark list, an optional `text` payload (present on text leaves) and a children
  list (`node.content.content`).  The document-model library is an external
  dependency of this repository and the spec consumes it as an opaque capability
  ("construct a node of type T with given attributes, children and marks";
  "read a node's type/attrs/marks/children"), so node construction and field
  access are modelled as plain value construction and projection.
* JavaScript's strict equality on attribute scalars is modelled by decidable
  equality of `AttrVal`; a missing attribute reads as `AttrVal.missing`, matching
  the source's comparison of absent keys as `undefined`.
* Arrays are Lean lists; `NChild` is the source's `ProsemirrorNode |
  ProsemirrorNode[]` normalized-child union; `findMatchNode`'s `-1` sentinel is
  `Option.none`.
* Thrown exceptions are `Except.error`; the engine's only reachable throw site
  is `assertNodeTypeEqual` at the top of `patchDocumentNode` (all recursive
  calls are guarded by `matchNodeType`, and `createDiffMark` is only called with
  `Inserted`/`Deleted`), so the recursive core is total and the wrapper
  `patchDocumentNode` returns `Except`.
-/

namespace ImprintDiff

/-- A scalar attribute value as it appears in a ProseMirror `attrs` record.
`missing` models an absent key (JavaScript `undefined`). -/
inductive AttrVal where
  | str (s : String)
  | num (n : Int)
  | boolean (b : Bool)
  | missing
  deriving Repr, DecidableEq

/-- A ProseMirror mark: `{type, attrs}`. -/
structure PMark where
  type : String
  attrs : List (String × AttrVal)
  deriving Repr, DecidableEq

/-- A ProseMirror node value: type name, attrs, marks, optional text payload
(text leaves), children (`node.content.content`, empty for leaves). -/
inductive PNode where
  | mk (type : String) (attrs : List (String × AttrVal)) (marks : List PMark)
       (text : Option String) (children : List PNode)

/-- The node's type name (`node.type.name`). -/
def PNode.typeName : PNode → String
  | .mk t _ _ _ _ => t

/-- The node's attribute list (`node.attrs`). -/
def PNode.attrsL : PNode → List (String × AttrVal)
  | .mk _ a _ _ _ => a

/-- The node's mark list (`node.marks`). -/
def PNode.marksL : PNode → List PMark
  | .mk _ _ m _ _ => m

/-- The node's optional text payload (`node.text`). -/
def PNode.textOpt : PNode → Option String
  | .mk _ _ _ x _ => x

/-- The node's children (`node.content.content`). -/
def PNode.childrenL : PNode → List PNode
  | .mk _ _ _ _ cs => cs

/-- `getNodeText`: `node.text ?? ''`. -/
def getNodeText (node : PNode) : String := node.textOpt.getD ""

/-- `getNodeChildren`: `node.content?.content ?? []`. -/
def getNodeChildren (node : PNode) : List PNode := node.childrenL

/-- `getNodeMarks`: `node.marks ?? []`. -/
def getNodeMarks (node : PNode) : List PMark := node.marksL

/-- `getNodeAttributes`: `node.attrs ? {...node.attrs} : {}`. -/
def getNodeAttributes (node : PNode) : List (String × AttrVal) := node.attrsL

/-- Reading one attribute; an absent key is `missing` (JS `undefined`). -/
def getAttr (attrs : List (String × AttrVal)) (key : String) : AttrVal :=
  match attrs.find? (fun p => decide (p.1 = key)) with
  | some p => p.2
  | none => .missing

/-- `isTextNode` on a single node: `node.type?.name === 'text'`. -/
def isTextNode (node : PNode) : Bool := decide (node.typeName = "text")

/-- A normalized child unit: `ProsemirrorNode | ProsemirrorNode[]`
(a single node, or a maximal run of adjacent text leaves). -/
inductive NChild where
  | single (n : PNode)
  | group (ns : List PNode)

/-- `isTextNode` on a normalized unit: arrays are never text nodes
(`Array.isArray(node)` short-circuits to `false` in the source). -/
def NChild.isText : NChild → Bool
  | .single n => isTextNode n
  | .group _ => false

/-- `ensureArray`: wrap a single node, pass an array through. -/
def ensureArray : NChild → List PNode
  | .single n => [n]
  | .group ns => ns

/-- `matchNodeType`: two arrays match; an array never matches a single node;
two single nodes match when their type names coincide. -/
def matchNodeType : NChild → NChild → Bool
  | .group _, .group _ => true
  | .group _, .single _ => false
  | .single _, .group _ => false
  | .single n1, .single n2 => decide (n1.typeName = n2.typeName)

/-- Mark equality inside `isNodeEqual`: type names equal and attrs
(`JSON.stringify` of the ordered attr record) equal. -/
def markEqual (m1 m2 : PMark) : Bool :=
  decide (m1.type = m2.type) && decide (m1.attrs = m2.attrs)

/-- Pairwise mark-list equality (the source checks lengths, then compares
element-wise; a length mismatch yields `false` either way). -/
def marksEqual : List PMark → List PMark → Bool
  | [], [] => true
  | m :: ms, n :: ns => markEqual m n && marksEqual ms ns
  | _, _ => false

/-- Attribute-set equality: over the union of both key sets (the source's
`[...new Set([...keys1, ...keys2])]`), each key's value must agree, missing
keys reading as `undefined`. -/
def attrsEqual (a1 a2 : List (String × AttrVal)) : Bool :=
  ((a1.map Prod.fst ++ a2.map Prod.fst).eraseDups).all
    (fun k => decide (getAttr a1 k = getAttr a2 k))

mutual

/-- `isNodeEqual` on two single nodes: type name, then (for text leaves) text
content, then attributes, then marks, then children, in the source's order. -/
def isPNodeEqual : PNode → PNode → Bool
  | .mk t1 a1 m1 x1 c1, .mk t2 a2 m2 x2 c2 =>
    decide (t1 = t2)
    && (if t1 = "text" then decide ((x1.getD "") = (x2.getD "")) else true)
    && attrsEqual a1 a2
    && marksEqual m1 m2
    && isChildrenEqual c1 c2

/-- Pairwise child-list equality (length check plus element-wise recursion). -/
def isChildrenEqual : List PNode → List PNode → Bool
  | [], [] => true
  | a :: as, b :: bs => isPNodeEqual a b && isChildrenEqual as bs
  | _, _ => false

end

/-- `isNodeEqual` on normalized units: an array never equals a single node;
two arrays compare by length and element-wise node equality. -/
def isNodeEqual : NChild → NChild → Bool
  | .single n1, .single n2 => isPNodeEqual n1 n2
  | .group g1, .group g2 => isChildrenEqual g1 g2
  | _, _ => false

/-- The children walk inside `normalizeNodeContent`: each non-text child is a
`single` unit; each maximal run of adjacent text children collapses into one
`group` unit. -/
def normalizeGo : List PNode → List NChild
  | [] => []
  | c :: rest =>
    if isTextNode c then
      .group (c :: rest.takeWhile isTextNode) :: normalizeGo (rest.dropWhile isTextNode)
    else
      .single c :: normalizeGo rest
termination_by l => l.length
decreasing_by
  · simpa using Nat.lt_succ_of_le (List.dropWhile_sublist _).length_le
  · simp

/-- `normalizeNodeContent`. -/
def normalizeNodeContent (node : PNode) : List NChild :=
  normalizeGo (getNodeChildren node)

/-- `MatchResult`. -/
structure MatchResult where
  oldStartIndex : Nat
  newStartIndex : Nat
  oldEndIndex : Nat
  newEndIndex : Nat
  count : Nat
  deriving Repr, DecidableEq

/-- `findMatchNode`: index of the first unit in `children` structurally equal
to `node` (`Option.none` models the `-1` sentinel; the source's `startIndex`
parameter always takes its default `0` at the call site). -/
def findMatchNode (children : List NChild) (node : NChild) : Option Nat :=
  match children with
  | [] => none
  | c :: cs =>
    if isNodeEqual c node then some 0
    else (findMatchNode cs node).map (· + 1)

/-- The greedy run extension inside `matchNodes`: number of further pairwise
equal positions (the source's loop advancing `oldEndIndex`/`newEndIndex`,
comparing `isNodeEqual(newChildren[newEndIndex], oldChildren[oldEndIndex])`). -/
def runLen : List NChild → List NChild → Nat
  | [], _ => 0
  | _ :: _, [] => 0
  | o :: os, n :: ns => if isNodeEqual n o then runLen os ns + 1 else 0

/-- The loop body of `matchNodes`: `oi` is the absolute index of the head of
the remaining old children. -/
def matchNodesGo (newChildren : List NChild) : List NChild → Nat → List MatchResult
  | [], _ => []
  | o :: os, oi =>
    let rest := matchNodesGo newChildren os (oi + 1)
    match findMatchNode newChildren o with
    | none => rest
    | some ni =>
      let r := runLen os (newChildren.drop (ni + 1))
      { oldStartIndex := oi
        newStartIndex := ni
        oldEndIndex := oi + 1 + r
        newEndIndex := ni + 1 + r
        count := ni + 1 + r - ni } :: rest

/-- `matchNodes` (the unused `schema` parameter is dropped). -/
def matchNodes (oldChildren newChildren : List NChild) : List MatchResult :=
  matchNodesGo newChildren oldChildren 0

/-- The patcher's `.sort((a, b) => b.count - a.count)`: a stable sort putting
greater counts first (JavaScript `Array.prototype.sort` is stable). -/
def sortMatchesByCount (ms : List MatchResult) : List MatchResult :=
  ms.mergeSort (fun a b => decide (b.count ≤ a.count))

/-- The best match the patcher selects: head of the stably sorted match list
(`matchedNodes[0]`, `undefined` on an empty list modelled as `none`). -/
def bestMatchOf (oldChildren newChildren : List NChild) : Option MatchResult :=
  (sortMatchesByCount (matchNodes oldChildren newChildren)).head?

/-- The prefix-trim loop of `patchDocumentNode`: length of the maximal
structurally-equal prefix of the two unit lists (the loop's `left < minChildLen`
bound is the point where the shorter list runs out). -/
def prefixTrimLen : List NChild → List NChild → Nat
  | o :: os, n :: ns => if isNodeEqual o n then prefixTrimLen os ns + 1 else 0
  | _, _ => 0

/-- The suffix-trim loop of `patchDocumentNode`, on the reversed unit lists:
`bound` is the number of iterations the guard `right + left + 1 < minChildLen`
allows (`minChildLen - left - 1`). -/
def suffixTrimLen : Nat → List NChild → List NChild → Nat
  | 0, _, _ => 0
  | bound + 1, o :: os, n :: ns =>
    if isNodeEqual o n then suffixTrimLen bound os ns + 1 else 0
  | _ + 1, _, _ => 0

/-- `DiffType.Unchanged`. -/
def DiffUnchanged : Int := 0

/-- `DiffType.Deleted`. -/
def DiffDeleted : Int := -1

/-- `DiffType.Inserted`. -/
def DiffInserted : Int := 1

/-- A sentence terminator, the character class `[.!?]` of the tokenizer
regex. -/
def isSentenceTerm (c : Char) : Bool := c = '.' || c = '!' || c = '?'

/-- The regex class `\s` (whitespace). -/
def isWs (c : Char) : Bool := c.isWhitespace

/-- The global scan of `text.match(/[^.!?]+[.!?]*\\s*/g)`: at a terminator the
regex cannot start a match, so the engine advances one position; otherwise the
match greedily takes non-terminators, then terminators, then whitespace.  The
`fuel` argument only drives termination (each step consumes at least one
character, so `tokenizeSentences` passes the text's length and the `fuel = 0`
branch is never reached). -/
def tokenizeGo : Nat → List Char → List String
  | 0, _ => []
  | _, [] => []
  | fuel + 1, c :: rest =>
    if isSentenceTerm c then tokenizeGo fuel rest
    else
      let body := (c :: rest).takeWhile (fun x => !isSentenceTerm x)
      let r1 := (c :: rest).dropWhile (fun x => !isSentenceTerm x)
      let terms := r1.takeWhile isSentenceTerm
      let r2 := r1.dropWhile isSentenceTerm
      let ws := r2.takeWhile isWs
      let r3 := r2.dropWhile isWs
      (body ++ terms ++ ws).asString :: tokenizeGo fuel r3

/-- `tokenizeSentences` (`matches ? matches.filter(Boolean) : []`). -/
def tokenizeSentences (text : String) : List String :=
  (tokenizeGo text.toList.length text.toList).filter (fun s => !s.isEmpty)

/-- The `line in lineHash` lookup: index of the first occurrence of a sentence
in the dictionary. -/
def indexOfStr : List String → String → Option Nat
  | [], _ => none
  | t :: rest, s =>
    if t = s then some 0 else (indexOfStr rest s).map (· + 1)

/-- The interning walk shared by the two `.map` passes of `sentencesToChars`:
`arr` is `lineArray` so far (its length is `lineStart`, and `lineHash` maps a
sentence to its index in `arr`); each sentence is emitted as the code-unit
value `String.fromCharCode` produces, i.e. its index reduced modulo 2^16. -/
def internSentences (arr : List String) : List String → List String × List Nat
  | [] => (arr, [])
  | s :: rest =>
    match indexOfStr arr s with
    | some i =>
      let res := internSentences arr rest
      (res.1, (i % 65536) :: res.2)
    | none =>
      let res := internSentences (arr ++ [s]) rest
      (res.1, (arr.length % 65536) :: res.2)

/-- The result record of `sentencesToChars`. -/
structure CharsResult where
  chars1 : List Nat
  chars2 : List Nat
  lineArray : List String

/-- `sentencesToChars`: intern the old sentences, then the new sentences into
the same dictionary, first-seen-wins. -/
def sentencesToChars (oldSentences newSentences : List String) : CharsResult :=
  let r1 := internSentences [] oldSentences
  let r2 := internSentences r1.1 newSentences
  ⟨r1.2, r2.2, r2.1⟩

/-- The longest common prefix of two code sequences. -/
def commonPrefix : List Nat → List Nat → List Nat
  | x :: xs, y :: ys => if x = y then x :: commonPrefix xs ys else []
  | _, _ => []

/-- Modelled from the spec (§2, §4.3): the external character-level diff
primitive (`diff-match-patch`'s `diff_main`), "a generic longest-common-
subsequence/Myers-diff primitive" that this repository consumes unchanged.
It returns `(Unchanged | Deleted | Inserted, segment)` pairs whose
`Unchanged`/`Deleted` segments concatenate to the old input and whose
`Unchanged`/`Inserted` segments concatenate to the new input; it is modelled
as the common prefix kept `Unchanged` followed by the old remainder `Deleted`
and the new remainder `Inserted` (empty segments omitted). -/
def diffMain (a b : List Nat) : List (Int × List Nat) :=
  let p := commonPrefix a b
  let a1 := a.drop p.length
  let b1 := b.drop p.length
  (if p.isEmpty then [] else [(DiffUnchanged, p)])
    ++ (if a1.isEmpty then [] else [(DiffDeleted, a1)])
    ++ (if b1.isEmpty then [] else [(DiffInserted, b1)])

/-- The mark value `schema.mark('diffMark', { type })` (the schema-registered
"diffMark" mark type, sole attribute `type`). -/
def diffMark (t : Int) : PMark := ⟨"diffMark", [("type", .num t)]⟩

/-- `createDiffMark`: the source throws `'type is not valid'` on any annotation
other than `Inserted`/`Deleted`; the error is `none`. -/
def createDiffMark (t : Int) : Option PMark :=
  if t = DiffInserted then some (diffMark t)
  else if t = DiffDeleted then some (diffMark t)
  else none

/-- `createTextNode`: `schema.text(content, marks)` — the host model's
construct-text capability, a text leaf with the given content and marks. -/
def createTextNode (content : String) (marks : List PMark) : PNode :=
  .mk "text" [] marks (some content) []

/-- `createNewNode`: `oldNode.type.create(oldNode.attrs, Fragment.fromArray(children),
oldNode.marks)` — a node of the old node's type, attrs and marks with the given
children (`oldNode.type` is always present in the model, so the
`'oldNode.type is undefined'` throw is unreachable). -/
def createNewNode (oldNode : PNode) (children : List PNode) : PNode :=
  .mk oldNode.typeName oldNode.attrsL oldNode.marksL none children

mutual

/-- `mapDocumentNode`: rebuild the node bottom-up (children first), then apply
the mapper to the copy (`mapper(copy) || copy`; `null`/`undefined` is `none`).
The copy keeps the node's own fields; for a text leaf the children list is
empty, so the copy is the node itself, as in the source where
`node.copy(Fragment.empty)` returns `this`. -/
def mapDocumentNode (mapper : PNode → Option PNode) : PNode → PNode
  | .mk t a m x cs =>
    let copy : PNode := .mk t a m x (mapChildren mapper cs)
    (mapper copy).getD copy

/-- The `node.content.content.map(...)` walk inside `mapDocumentNode` (every
element is a node, so the `instanceof`/`null` filter keeps them all). -/
def mapChildren (mapper : PNode → Option PNode) : List PNode → List PNode
  | [] => []
  | c :: cs => mapDocumentNode mapper c :: mapChildren mapper cs

end

/-- `createDiffNode`: deep-map the subtree, replacing every text leaf by a copy
whose mark list gains the diff mark at the end.  The source appends
`createDiffMark(schema, type)`, which for the `Deleted`/`Inserted` annotations
passed at every call site is exactly `diffMark type`
(see `createDiffMark_valid`). -/
def createDiffNode (node : PNode) (t : Int) : PNode :=
  mapDocumentNode
    (fun currentNode =>
      if isTextNode currentNode then
        some (createTextNode (getNodeText currentNode)
          (getNodeMarks currentNode ++ [diffMark t]))
      else none)
    node

/-- `computeChildEqualityFactor`: the unimplemented stub (it only warns and
returns `0`). -/
def computeChildEqualityFactor (_node1 _node2 : NChild) : Int := 0

/-- `assertNodeTypeEqual`: throws `node type not equal: A !== B` when the two
type names differ (two `NodeType` objects of one schema are identical exactly
when their names coincide). -/
def assertNodeTypeEqual (node1 node2 : PNode) : Except String Unit :=
  if node1.typeName ≠ node2.typeName then
    .error ("node type not equal: " ++ node1.typeName ++ " !== " ++ node2.typeName)
  else .ok ()

/-- `patchTextNodes`: concatenate each side's text, tokenize into sentences,
intern sentences as code units, run the character diff, expand codes back to
sentences (`lineArray[char.charCodeAt(0)] || ''`, dropping empties), and emit
one text leaf per sentence, changed sentences carrying the diff mark. -/
def patchTextNodes (oldNode newNode : List PNode) : List PNode :=
  let oldText := String.join (oldNode.map getNodeText)
  let newText := String.join (newNode.map getNodeText)
  let oldSentences := tokenizeSentences oldText
  let newSentences := tokenizeSentences newText
  let stc := sentencesToChars oldSentences newSentences
  let rawDiffs := diffMain stc.chars1 stc.chars2
  let diffs : List (Int × List String) :=
    rawDiffs.map (fun td =>
      (td.1, (td.2.map (fun c => stc.lineArray.getD c "")).filter
        (fun s => decide (s ≠ ""))))
  diffs.flatMap (fun ts =>
    ts.2.map (fun sentence =>
      createTextNode sentence (if ts.1 ≠ DiffUnchanged then [diffMark ts.1] else [])))

mutual

/-- Size measure on nodes, used only for termination of the patcher. -/
def nsize : PNode → Nat
  | .mk _ _ _ _ cs => 1 + 2 * csize cs

/-- Size measure on children lists. -/
def csize : List PNode → Nat
  | [] => 0
  | c :: cs => 1 + nsize c + csize cs

end

/-- Size measure on normalized units. -/
def usize : NChild → Nat
  | .single n => 1 + nsize n
  | .group ns => 1 + csize ns

/-- Size measure on normalized unit lists. -/
def ussize : List NChild → Nat
  | [] => 0
  | u :: us => usize u + ussize us

theorem nsize_pos (n : PNode) : 1 ≤ nsize n := by
  cases n with
  | mk t a m x cs => simp [nsize]

theorem usize_pos (u : NChild) : 1 ≤ usize u := by
  cases u <;> simp [usize]

theorem csize_append (a b : List PNode) : csize (a ++ b) = csize a + csize b := by
  induction a with
  | nil => simp [csize]
  | cons c cs ih => simp [csize, ih]; omega

theorem length_le_csize (cs : List PNode) : cs.length ≤ csize cs := by
  induction cs with
  | nil => simp [csize]
  | cons c cs ih =>
    have := nsize_pos c
    simp [csize]
    omega

theorem ussize_sublist {a b : List NChild} (h : a.Sublist b) :
    ussize a ≤ ussize b := by
  induction h with
  | slnil => exact Nat.le_refl _
  | cons u _ ih => simp [ussize]; omega
  | cons₂ u _ ih => simp [ussize]; omega

theorem usize_le_ussize_of_mem {u : NChild} {us : List NChild} (h : u ∈ us) :
    usize u ≤ ussize us := by
  induction us with
  | nil => cases h
  | cons v vs ih =>
    rcases List.mem_cons.mp h with h | h
    · subst h; simp [ussize]
    · have := ih h; simp [ussize]; omega

theorem getLastD_mem_cons (l : List α) (d : α) : l.getLastD d ∈ d :: l := by
  induction l generalizing d with
  | nil => simp [List.getLastD]
  | cons x xs ih =>
    rcases List.mem_cons.mp (ih x) with h | h
    · rw [List.getLastD_cons, h]
      exact List.mem_cons_of_mem d (List.mem_cons_self x xs)
    · rw [List.getLastD_cons]
      exact List.mem_cons_of_mem d (List.mem_cons_of_mem x h)

theorem ussize_dropLast_lt (us : List NChild) (h : us ≠ []) :
    ussize us.dropLast < ussize us := by
  induction us with
  | nil => cases h rfl
  | cons u vs ih =>
    cases vs with
    | nil =>
      have := usize_pos u
      simp [ussize]
      omega
    | cons v ws =>
      have := ih (by simp)
      simp only [List.dropLast_cons₂, ussize] at *
      omega

theorem ussize_take_drop_le (us : List NChild) (i j : Nat) :
    ussize ((us.drop i).take j) ≤ ussize us :=
  ussize_sublist ((List.take_sublist _ _).trans (List.drop_sublist _ _))

theorem ussize_take_le (us : List NChild) (i : Nat) :
    ussize (us.take i) ≤ ussize us :=
  ussize_sublist (List.take_sublist _ _)

theorem ussize_drop_le (us : List NChild) (i : Nat) :
    ussize (us.drop i) ≤ ussize us :=
  ussize_sublist (List.drop_sublist _ _)

/-- The `Array.isArray` probe on a unit, keeping the array payload. -/
def asGroup : NChild → Option (List PNode)
  | .group g => some g
  | .single _ => none

/-- The `instanceof ProsemirrorNode` probe on a unit, keeping the node. -/
def asSingle : NChild → Option PNode
  | .single n => some n
  | .group _ => none

theorem usize_of_asSingle {u : NChild} {n : PNode} (h : asSingle u = some n) :
    usize u = 1 + nsize n := by
  cases u with
  | single m =>
    simp only [asSingle, Option.some.injEq] at h
    subst h
    rfl
  | group g => simp [asSingle] at h

theorem ussize_normalizeGo (cs : List PNode) :
    ussize (normalizeGo cs) ≤ csize cs + cs.length := by
  induction cs using normalizeGo.induct with
  | case1 => simp [normalizeGo, ussize, csize]
  | case2 c rest h ih =>
    rw [normalizeGo]
    simp only [h, if_true]
    have hsplit : rest.takeWhile isTextNode ++ rest.dropWhile isTextNode = rest :=
      List.takeWhile_append_dropWhile isTextNode rest
    have hcs : csize (rest.takeWhile isTextNode) + csize (rest.dropWhile isTextNode)
        = csize rest := by
      rw [← csize_append, hsplit]
    have hlen : (rest.dropWhile isTextNode).length ≤ rest.length :=
      (List.dropWhile_sublist _).length_le
    simp only [ussize, usize, csize, List.length_cons]
    omega
  | case3 c rest h ih =>
    rw [normalizeGo]
    simp only [h, if_false]
    simp only [ussize, usize, csize, List.length_cons]
    omega

theorem ussize_normalize_lt (n : PNode) : ussize (normalizeNodeContent n) < nsize n := by
  cases n with
  | mk t a m x cs =>
    have h1 := ussize_normalizeGo cs
    have h2 := length_le_csize cs
    simp only [normalizeNodeContent, getNodeChildren, PNode.childrenL, nsize]
    omega

mutual

/-- The body of `patchDocumentNode` after its type assertion (the assertion is
the only throw site reachable from it, so the recursive core is total; the
recursive call in `patchRemainNodes` is guarded by `matchNodeType`, under which
the assertion provably succeeds).  Prefix-equal units are moved unchanged into
the left result, suffix-equal units (bounded by the guard `right + left + 1 <
minChildLen`) into the right result; the middle is aligned around the best
match when both diff slices are non-empty. -/
def patchDocumentNodeCore (oldNode newNode : PNode) : PNode :=
  let oldChildren := normalizeNodeContent oldNode
  let newChildren := normalizeNodeContent newNode
  let oldChildLen := oldChildren.length
  let newChildLen := newChildren.length
  let minChildLen := min oldChildLen newChildLen
  let left := prefixTrimLen oldChildren newChildren
  let right := suffixTrimLen (minChildLen - left - 1) oldChildren.reverse newChildren.reverse
  let finalLeftStart := (oldChildren.take left).flatMap ensureArray
  let finalRightEnd := (oldChildren.drop (oldChildLen - right)).flatMap ensureArray
  let diffOldChildren := (oldChildren.drop left).take (oldChildLen - right - left)
  let diffNewChildren := (newChildren.drop left).take (newChildLen - right - left)
  let mid :=
    if !diffOldChildren.isEmpty && !diffNewChildren.isEmpty then
      match bestMatchOf diffOldChildren diffNewChildren with
      | some bestMatch =>
        let beforeP := patchRemainNodes (diffOldChildren.take bestMatch.oldStartIndex)
          (diffNewChildren.take bestMatch.newStartIndex)
        let matched := ((diffOldChildren.drop bestMatch.oldStartIndex).take
          (bestMatch.oldEndIndex - bestMatch.oldStartIndex)).flatMap ensureArray
        let afterP := patchRemainNodes (diffOldChildren.drop bestMatch.oldEndIndex)
          (diffNewChildren.drop bestMatch.newEndIndex)
        (beforeP ++ matched, afterP)
      | none => (patchRemainNodes diffOldChildren diffNewChildren, ([] : List PNode))
    else (patchRemainNodes diffOldChildren diffNewChildren, ([] : List PNode))
  createNewNode oldNode (finalLeftStart ++ mid.1 ++ mid.2 ++ finalRightEnd)
termination_by (nsize oldNode + nsize newNode, 0)
decreasing_by
  · apply Prod.Lex.left
    exact Nat.lt_of_le_of_lt
      (Nat.add_le_add ((ussize_take_le _ _).trans (ussize_take_drop_le _ _ _))
        ((ussize_take_le _ _).trans (ussize_take_drop_le _ _ _)))
      (by
        have hOld := ussize_normalize_lt oldNode
        have hNew := ussize_normalize_lt newNode
        omega)
  · apply Prod.Lex.left
    exact Nat.lt_of_le_of_lt
      (Nat.add_le_add ((ussize_drop_le _ _).trans (ussize_take_drop_le _ _ _))
        ((ussize_drop_le _ _).trans (ussize_take_drop_le _ _ _)))
      (by
        have hOld := ussize_normalize_lt oldNode
        have hNew := ussize_normalize_lt newNode
        omega)
  · apply Prod.Lex.left
    exact Nat.lt_of_le_of_lt
      (Nat.add_le_add (ussize_take_drop_le _ _ _) (ussize_take_drop_le _ _ _))
      (by
        have hOld := ussize_normalize_lt oldNode
        have hNew := ussize_normalize_lt newNode
        omega)
  · apply Prod.Lex.left
    exact Nat.lt_of_le_of_lt
      (Nat.add_le_add (ussize_take_drop_le _ _ _) (ussize_take_drop_le _ _ _))
      (by
        have hOld := ussize_normalize_lt oldNode
        have hNew := ussize_normalize_lt newNode
        omega)

/-- `patchRemainNodes`: run the two-pointer walk, then final children =
left accumulator ++ right accumulator. -/
def patchRemainNodes (oldChildren newChildren : List NChild) : List PNode :=
  let res := patchRemainLoop oldChildren newChildren
  res.1 ++ res.2
termination_by (ussize oldChildren + ussize newChildren, 2)
decreasing_by
  apply Prod.Lex.right
  omega

/-- The `while` loop of `patchRemainNodes` together with the trailing
delete/insert emission.  The single `left`/`right` pointers index both lists,
so the loop state is the two windows still unconsumed; the loop runs while both
are non-empty, and the remainders are emitted wholly `Deleted` (old side,
appended to the left accumulator) or `Inserted` (new side, prepended to the
right accumulator).  Each iteration: two text-run groups go to the Text Diff
Engine (left pointer advances); otherwise the `updatable` flags are computed
for the left and right pairs, a double-update tie is broken by the equality
factor (`<` keeps the left side), an updatable side is patched recursively,
and when neither side is updatable the delete+insert fallback emits the left
pair's operands that are single nodes (`instanceof ProsemirrorNode`), the left
pointer advancing. -/
def patchRemainLoop : List NChild → List NChild → List PNode × List PNode
  | [], newRem =>
    ([], (newRem.flatMap ensureArray).map (fun nd => createDiffNode nd DiffInserted))
  | oldRem, [] =>
    ((oldRem.flatMap ensureArray).map (fun nd => createDiffNode nd DiffDeleted), [])
  | lo :: oldTail, ln :: newTail =>
    let ro := oldTail.getLastD lo
    let rn := newTail.getLastD ln
    match asGroup lo, asGroup ln with
    | some g1, some g2 =>
      let res := patchRemainLoop oldTail newTail
      (patchTextNodes g1 g2 ++ res.1, res.2)
    | _, _ =>
      let updateLeft := !(NChild.isText lo) && matchNodeType lo ln
      let updateRight := !(NChild.isText ro) && matchNodeType ro rn
      let flags :=
        if updateLeft && updateRight then
          if computeChildEqualityFactor lo ln < computeChildEqualityFactor ro rn then
            (false, updateRight)
          else (updateLeft, false)
        else (updateLeft, updateRight)
      if flags.1 then
        let patched :=
          match h1 : asSingle lo, h2 : asSingle ln with
          | some o, some n => [patchDocumentNodeCore o n]
          | _, _ => []
        let res := patchRemainLoop oldTail newTail
        (patched ++ res.1, res.2)
      else if flags.2 then
        let patched :=
          match h1 : asSingle ro, h2 : asSingle rn with
          | some o, some n => [patchDocumentNodeCore o n]
          | _, _ => []
        let res := patchRemainLoop ((lo :: oldTail).dropLast) ((ln :: newTail).dropLast)
        (res.1, res.2 ++ patched)
      else
        let dels :=
          match asSingle lo with
          | some o => [createDiffNode o DiffDeleted]
          | none => []
        let inss :=
          match asSingle ln with
          | some n => [createDiffNode n DiffInserted]
          | none => []
        let res := patchRemainLoop oldTail newTail
        (dels ++ inss ++ res.1, res.2)
termination_by oldRem newRem => (ussize oldRem + ussize newRem, 1)
decreasing_by
  · apply Prod.Lex.left
    have p1 := usize_pos lo
    have p2 := usize_pos ln
    simp only [ussize]
    omega
  · apply Prod.Lex.left
    have e1 := usize_of_asSingle h1
    have e2 := usize_of_asSingle h2
    simp only [ussize]
    omega
  · apply Prod.Lex.left
    have hmo : usize (oldTail.getLastD lo) <= ussize (lo :: oldTail) :=
      usize_le_ussize_of_mem (getLastD_mem_cons oldTail lo)
    have hmn : usize (newTail.getLastD ln) <= ussize (ln :: newTail) :=
      usize_le_ussize_of_mem (getLastD_mem_cons newTail ln)
    have e1 := usize_of_asSingle h1
    have e2 := usize_of_asSingle h2
    simp only [ro, rn] at e1 e2
    omega
  · apply Prod.Lex.left
    have hdo := ussize_dropLast_lt (lo :: oldTail) (by simp)
    have hdn := ussize_dropLast_lt (ln :: newTail) (by simp)
    omega

end

/-- `patchDocumentNode`: assert the two nodes share a type (the contract
violation aborts the call), then run the patch body. -/
def patchDocumentNode (oldNode newNode : PNode) : Except String PNode :=
  match assertNodeTypeEqual oldNode newNode with
  | .error e => .error e
  | .ok _ => .ok (patchDocumentNodeCore oldNode newNode)

mutual

/-- Spec-side observer: no mark of type `diffMark` anywhere in the tree
("zero diff marks anywhere", spec §8 Identity). -/
def noDiffMarks : PNode → Bool
  | .mk _ _ m _ cs =>
    m.all (fun mark => decide (mark.type ≠ "diffMark")) && noDiffMarksL cs

/-- `noDiffMarks` over a children list. -/
def noDiffMarksL : List PNode → Bool
  | [] => true
  | c :: cs => noDiffMarks c && noDiffMarksL cs

end

mutual

/-- Well-formed ProseMirror values (spec §3 invariant: a node's type determines
whether it carries `text` or `children`, never both; text leaves have no attrs
and no children, and non-text nodes no text payload). -/
def WF : PNode → Bool
  | .mk t a _ x cs =>
    if t = "text" then decide (a = []) && cs.isEmpty && x.isSome
    else x.isNone && WFL cs

/-- `WF` over a children list. -/
def WFL : List PNode → Bool
  | [] => true
  | c :: cs => WF c && WFL cs

end

mutual

/-- Modelled from the spec (§4.4 Diff Annotator contract): a deep copy of the
subtree in which every text-bearing leaf gains the diff mark appended to its
existing mark list, and every non-text node is copied structurally unchanged
except that its descendants are likewise annotated. -/
def specAnnotate (t : Int) : PNode → PNode
  | .mk ty a m x cs =>
    if ty = "text" then .mk ty a (m ++ [diffMark t]) x cs
    else .mk ty a m x (specAnnotateL t cs)

/-- `specAnnotate` over a children list. -/
def specAnnotateL (t : Int) : List PNode → List PNode
  | [] => []
  | c :: cs => specAnnotate t c :: specAnnotateL t cs

end

/-- Spec-side observer: the diff annotation a leaf carries — the `type`
attribute of its `diffMark` mark, `Unchanged` (0) when it has none. -/
def diffAnnot (node : PNode) : Int :=
  match (getNodeMarks node).find? (fun m => decide (m.type = "diffMark")) with
  | some m =>
    match getAttr m.attrs "type" with
    | .num t => t
    | _ => DiffUnchanged
  | none => DiffUnchanged

instance : Inhabited NChild := ⟨.group []⟩

/-! ## General lemmas -/

theorem prefixTrimLen_le (l1 l2 : List NChild) :
    prefixTrimLen l1 l2 ≤ min l1.length l2.length := by
  induction l1 generalizing l2 with
  | nil => simp [prefixTrimLen]
  | cons a as ih =>
    cases l2 with
    | nil => simp [prefixTrimLen]
    | cons b bs =>
      rw [prefixTrimLen]
      split
      · have := ih bs
        simp only [List.length_cons]
        omega
      · omega

theorem suffixTrimLen_le (b : Nat) (l1 l2 : List NChild) :
    suffixTrimLen b l1 l2 ≤ b := by
  induction b generalizing l1 l2 with
  | zero => simp [suffixTrimLen]
  | succ k ih =>
    cases l1 with
    | nil => simp [suffixTrimLen]
    | cons a as =>
      cases l2 with
      | nil => simp [suffixTrimLen]
      | cons c cs =>
        rw [suffixTrimLen]
        split
        · have := ih as cs
          omega
        · omega

theorem patchCore_eq_createNewNode (o n : PNode) :
    ∃ kids, patchDocumentNodeCore o n = createNewNode o kids := by
  rw [patchDocumentNodeCore]
  exact ⟨_, rfl⟩

/-- Simultaneous structural induction for `PNode` and its children lists. -/
theorem pnode_induction (motive1 : PNode → Prop) (motive2 : List PNode → Prop)
    (hmk : ∀ t a m x cs, motive2 cs → motive1 (.mk t a m x cs))
    (hnil : motive2 [])
    (hcons : ∀ c cs, motive1 c → motive2 cs → motive2 (c :: cs)) :
    (∀ node, motive1 node) ∧ (∀ cs, motive2 cs) := by
  have key : ∀ k, (∀ node, nsize node ≤ k → motive1 node)
      ∧ (∀ cs, csize cs ≤ k → motive2 cs) := by
    intro k
    induction k with
    | zero =>
      constructor
      · intro node hsz
        have := nsize_pos node
        omega
      · intro cs hsz
        cases cs with
        | nil => exact hnil
        | cons c rest =>
          rw [csize] at hsz
          omega
    | succ k ih =>
      constructor
      · intro node hsz
        cases node with
        | mk t a m x cs =>
          apply hmk
          apply ih.2
          rw [nsize] at hsz
          omega
      · intro cs hsz
        cases cs with
        | nil => exact hnil
        | cons c rest =>
          rw [csize] at hsz
          exact hcons c rest (ih.1 c (by omega)) (ih.2 rest (by omega))
  exact ⟨fun node => (key (nsize node)).1 node (Nat.le_refl _),
    fun cs => (key (csize cs)).2 cs (Nat.le_refl _)⟩

theorem markEqual_refl (m : PMark) : markEqual m m = true := by
  simp [markEqual]

theorem marksEqual_refl (ms : List PMark) : marksEqual ms ms = true := by
  induction ms with
  | nil => rfl
  | cons m rest ih => rw [marksEqual]; simp [markEqual_refl, ih]

theorem attrsEqual_refl (a : List (String × AttrVal)) : attrsEqual a a = true := by
  simp [attrsEqual]

theorem isPNodeEqual_refl_aux :
    (∀ node, isPNodeEqual node node = true)
    ∧ (∀ cs, isChildrenEqual cs cs = true) := by
  refine pnode_induction _ _ ?_ ?_ ?_
  · intro t a m x cs ih
    rw [isPNodeEqual]
    simp [attrsEqual_refl, marksEqual_refl, ih]
  · rfl
  · intro c cs ih1 ih2
    rw [isChildrenEqual]
    simp [ih1, ih2]

theorem isPNodeEqual_refl (node : PNode) : isPNodeEqual node node = true :=
  isPNodeEqual_refl_aux.1 node

theorem isChildrenEqual_refl (cs : List PNode) : isChildrenEqual cs cs = true :=
  isPNodeEqual_refl_aux.2 cs

theorem isPNodeEqual_typeName {n1 n2 : PNode} (h : isPNodeEqual n1 n2 = true) :
    n1.typeName = n2.typeName := by
  cases n1 with
  | mk t1 a1 m1 x1 c1 =>
    cases n2 with
    | mk t2 a2 m2 x2 c2 =>
      rw [isPNodeEqual] at h
      simp only [Bool.and_eq_true, decide_eq_true_eq] at h
      exact h.1.1.1.1

theorem isPNodeEqual_children {n1 n2 : PNode} (h : isPNodeEqual n1 n2 = true) :
    isChildrenEqual n1.childrenL n2.childrenL = true := by
  cases n1 with
  | mk t1 a1 m1 x1 c1 =>
    cases n2 with
    | mk t2 a2 m2 x2 c2 =>
      rw [isPNodeEqual] at h
      simp only [Bool.and_eq_true] at h
      exact h.2

theorem isTextNode_eq_of_equal {n1 n2 : PNode} (h : isPNodeEqual n1 n2 = true) :
    isTextNode n1 = isTextNode n2 := by
  simp [isTextNode, isPNodeEqual_typeName h]

theorem isChildrenEqual_nil_right {bs : List PNode}
    (h : isChildrenEqual [] bs = true) : bs = [] := by
  cases bs with
  | nil => rfl
  | cons b rest =>
    have e : isChildrenEqual [] (b :: rest) = false := rfl
    rw [e] at h
    cases h

theorem isChildrenEqual_cons {a : PNode} {as bs : List PNode}
    (h : isChildrenEqual (a :: as) bs = true) :
    ∃ b rest, bs = b :: rest ∧ isPNodeEqual a b = true
      ∧ isChildrenEqual as rest = true := by
  cases bs with
  | nil =>
    have e : isChildrenEqual (a :: as) [] = false := rfl
    rw [e] at h
    cases h
  | cons b rest =>
    rw [isChildrenEqual] at h
    simp only [Bool.and_eq_true] at h
    exact ⟨b, rest, rfl, h.1, h.2⟩

theorem takeWhile_dropWhile_equal :
    ∀ (as bs : List PNode), isChildrenEqual as bs = true →
      isChildrenEqual (as.takeWhile isTextNode) (bs.takeWhile isTextNode) = true
      ∧ isChildrenEqual (as.dropWhile isTextNode) (bs.dropWhile isTextNode) = true := by
  intro as
  induction as with
  | nil =>
    intro bs h
    rw [isChildrenEqual_nil_right h]
    exact ⟨rfl, rfl⟩
  | cons a rest ih =>
    intro bs h
    obtain ⟨b, brest, hb, hab, hrest⟩ := isChildrenEqual_cons h
    subst hb
    have htx := isTextNode_eq_of_equal hab
    cases hta : isTextNode a with
    | true =>
      have htb : isTextNode b = true := by rw [← htx]; exact hta
      obtain ⟨ih1, ih2⟩ := ih brest hrest
      constructor
      · rw [List.takeWhile_cons, List.takeWhile_cons, hta, htb]
        simp only [if_true]
        rw [isChildrenEqual]
        simp [hab, ih1]
      · rw [List.dropWhile_cons, List.dropWhile_cons, hta, htb]
        simp only [if_true]
        exact ih2
    | false =>
      have htb : isTextNode b = false := by rw [← htx]; exact hta
      constructor
      · rw [List.takeWhile_cons, List.takeWhile_cons, hta, htb]
        simp only [Bool.false_eq_true, if_false]
        rfl
      · rw [List.dropWhile_cons, List.dropWhile_cons, hta, htb]
        simp only [Bool.false_eq_true, if_false]
        rw [isChildrenEqual]
        simp [hab, hrest]

theorem normalizeGo_forall₂ :
    ∀ (c1 c2 : List PNode), isChildrenEqual c1 c2 = true →
      List.Forall₂ (fun u v => isNodeEqual u v = true) (normalizeGo c1) (normalizeGo c2) := by
  intro c1
  induction c1 using normalizeGo.induct with
  | case1 =>
    intro c2 h
    rw [isChildrenEqual_nil_right h]
    simp [normalizeGo]
  | case2 c rest h ih =>
    intro c2 hc
    obtain ⟨b, brest, hb, hab, hrest⟩ := isChildrenEqual_cons hc
    subst hb
    have htb : isTextNode b = true := (isTextNode_eq_of_equal hab) ▸ h
    obtain ⟨htw, hdw⟩ := takeWhile_dropWhile_equal rest brest hrest
    rw [normalizeGo, normalizeGo]
    simp only [h, htb, if_true]
    constructor
    · rw [isNodeEqual, isChildrenEqual]
      simp [hab, htw]
    · exact ih _ hdw
  | case3 c rest h ih =>
    intro c2 hc
    obtain ⟨b, brest, hb, hab, hrest⟩ := isChildrenEqual_cons hc
    subst hb
    have htb : ¬ isTextNode b = true := by
      rw [← isTextNode_eq_of_equal hab]; exact h
    rw [normalizeGo, normalizeGo]
    simp only [h, htb, if_false]
    constructor
    · rw [isNodeEqual]; exact hab
    · exact ih _ hrest

theorem prefixTrimLen_of_forall₂ {l1 l2 : List NChild}
    (h : List.Forall₂ (fun u v => isNodeEqual u v = true) l1 l2) :
    prefixTrimLen l1 l2 = l1.length := by
  induction h with
  | nil => rfl
  | cons hab _ ih =>
    rw [prefixTrimLen]
    simp [hab, ih]

theorem flatMap_ensureArray_normalizeGo (cs : List PNode) :
    (normalizeGo cs).flatMap ensureArray = cs := by
  induction cs using normalizeGo.induct with
  | case1 => simp [normalizeGo]
  | case2 c rest h ih =>
    rw [normalizeGo]
    simp only [h, if_true, List.flatMap_cons, ensureArray, ih]
    simp [List.takeWhile_append_dropWhile]
  | case3 c rest h ih =>
    rw [normalizeGo]
    rw [if_neg h, List.flatMap_cons, show ensureArray (NChild.single c) = [c] from rfl, ih]
    rfl

theorem patchRemainNodes_nil : patchRemainNodes [] [] = [] := by
  rw [patchRemainNodes, patchRemainLoop]
  simp

theorem patchCore_of_equal (o n : PNode) (h : isPNodeEqual o n = true) :
    patchDocumentNodeCore o n = createNewNode o (getNodeChildren o) := by
  have hf2 := normalizeGo_forall₂ _ _ (isPNodeEqual_children h)
  have hlen : (normalizeNodeContent o).length = (normalizeNodeContent n).length := by
    simpa [normalizeNodeContent, getNodeChildren] using hf2.length_eq
  have hpre : prefixTrimLen (normalizeNodeContent o) (normalizeNodeContent n)
      = (normalizeNodeContent o).length := by
    simpa [normalizeNodeContent, getNodeChildren] using prefixTrimLen_of_forall₂ hf2
  have e1 : (normalizeNodeContent o).drop ((normalizeNodeContent o).length) = [] :=
    List.drop_length _
  have e2 : (normalizeNodeContent n).drop ((normalizeNodeContent o).length) = [] := by
    rw [hlen]; exact List.drop_length _
  have e3 : (normalizeNodeContent o).take ((normalizeNodeContent o).length)
      = normalizeNodeContent o := List.take_length _
  rw [patchDocumentNodeCore]
  simp only [hpre, ← hlen, Nat.min_self, Nat.sub_self, Nat.zero_sub, Nat.sub_zero,
    suffixTrimLen, e1, e2, e3, List.take_nil, List.flatMap_nil, List.isEmpty_nil,
    Bool.not_true, Bool.and_false, Bool.false_and, if_false, Bool.false_eq_true,
    ite_false, patchRemainNodes_nil, List.append_nil, List.nil_append]
  rw [normalizeNodeContent, flatMap_ensureArray_normalizeGo]

/-! ## C1: diffing a document against itself -/

/-- C1: patching a non-text node against a structurally equal node returns a
tree structurally equal to the old document, and when the old document carries
no diff marks the result carries none either. -/
theorem diff_identity (o n : PNode) (heq : isPNodeEqual o n = true)
    (hx : o.textOpt = none) (hm : noDiffMarks o = true) :
    ∃ r, patchDocumentNode o n = Except.ok r ∧ isPNodeEqual r o = true
      ∧ noDiffMarks r = true := by
  have ht : o.typeName = n.typeName := isPNodeEqual_typeName heq
  have hcore := patchCore_of_equal o n heq
  have hself : createNewNode o (getNodeChildren o) = o := by
    cases o with
    | mk t a m x cs =>
      simp only [PNode.textOpt] at hx
      subst hx
      rfl
  refine ⟨o, ?_, isPNodeEqual_refl o, hm⟩
  simp [patchDocumentNode, assertNodeTypeEqual, ht, hcore, hself]

/-- Witness for C1 on a one-paragraph document. -/
theorem diff_identity_witness :
    ∃ r, patchDocumentNode
        (PNode.mk "doc" [] [] none
          [PNode.mk "paragraph" [] [] none
            [PNode.mk "text" [] [] (some "Hello world.") []]])
        (PNode.mk "doc" [] [] none
          [PNode.mk "paragraph" [] [] none
            [PNode.mk "text" [] [] (some "Hello world.") []]])
      = Except.ok r
    ∧ isPNodeEqual r (PNode.mk "doc" [] [] none
        [PNode.mk "paragraph" [] [] none
          [PNode.mk "text" [] [] (some "Hello world.") []]]) = true
    ∧ noDiffMarks r = true :=
  diff_identity _ _ (by decide) (by decide) (by decide)

/-! ## C5: type-mismatch contract -/

/-- C5: for every two top-level nodes whose types differ, `patchDocumentNode`
always fails with the descriptive error naming both mismatched types, and
never returns a tree. -/
theorem patcher_type_mismatch (o n : PNode) (h : o.typeName ≠ n.typeName) :
    patchDocumentNode o n
      = Except.error ("node type not equal: " ++ o.typeName ++ " !== " ++ n.typeName)
    ∧ ∀ r, patchDocumentNode o n ≠ Except.ok r := by
  refine ⟨by simp [patchDocumentNode, assertNodeTypeEqual, h], ?_⟩
  intro r hc
  simp [patchDocumentNode, assertNodeTypeEqual, h] at hc

/-- Witness for C5 at `doc` versus `paragraph`. -/
theorem patcher_type_mismatch_witness :
    (PNode.mk "doc" [] [] none []).typeName ≠ (PNode.mk "paragraph" [] [] none []).typeName
    ∧ patchDocumentNode (PNode.mk "doc" [] [] none []) (PNode.mk "paragraph" [] [] none [])
      = Except.error "node type not equal: doc !== paragraph" := by
  have h : (PNode.mk "doc" [] [] none []).typeName
      ≠ (PNode.mk "paragraph" [] [] none []).typeName := by decide
  refine ⟨h, ?_⟩
  have := (patcher_type_mismatch (PNode.mk "doc" [] [] none [])
    (PNode.mk "paragraph" [] [] none []) h).1
  simpa [PNode.typeName] using this

/-! ## C9: the merged node keeps the old node's header -/

/-- C9: whenever `patchDocumentNode` returns a merged node, that node carries
exactly the old node's type, attrs and marks (and no text payload, so for a
non-text old node only the child content can differ). -/
theorem patch_preserves_header (o n r : PNode) (h : patchDocumentNode o n = Except.ok r) :
    r.typeName = o.typeName ∧ r.attrsL = o.attrsL ∧ r.marksL = o.marksL
    ∧ (o.textOpt = none → r.textOpt = o.textOpt) := by
  have hr : r = patchDocumentNodeCore o n := by
    by_cases ht : o.typeName = n.typeName
    · simp [patchDocumentNode, assertNodeTypeEqual, ht] at h
      exact h.symm
    · simp [patchDocumentNode, assertNodeTypeEqual, ht] at h
  obtain ⟨kids, hk⟩ := patchCore_eq_createNewNode o n
  subst hr
  rw [hk]
  exact ⟨rfl, rfl, rfl, fun hx => by rw [hx]; rfl⟩

/-- Witness for C9 on two childless `doc` nodes with distinct attrs/marks. -/
theorem patch_preserves_header_witness :
    patchDocumentNode (PNode.mk "doc" [("k", .num 1)] [⟨"m", []⟩] none [])
        (PNode.mk "doc" [] [] none [])
      = Except.ok (PNode.mk "doc" [("k", .num 1)] [⟨"m", []⟩] none [])
    ∧ (PNode.mk "doc" [("k", .num 1)] [⟨"m", []⟩] none []).typeName
      = (PNode.mk "doc" [("k", .num 1)] [⟨"m", []⟩] none []).typeName := by
  have h : patchDocumentNode (PNode.mk "doc" [("k", .num 1)] [⟨"m", []⟩] none [])
      (PNode.mk "doc" [] [] none [])
      = Except.ok (PNode.mk "doc" [("k", .num 1)] [⟨"m", []⟩] none []) := by
    simp [patchDocumentNode, assertNodeTypeEqual, patchDocumentNodeCore, patchRemainNodes,
      patchRemainLoop, normalizeNodeContent, normalizeGo, getNodeChildren, PNode.childrenL,
      PNode.typeName, prefixTrimLen, suffixTrimLen, createNewNode, PNode.attrsL, PNode.marksL,
      ensureArray]
  exact ⟨h, (patch_preserves_header _ _ _ h).1⟩

/-! ## C8: prefix and suffix trims never overlap -/

/-- C8: the suffix trim is bounded by the `right + left + 1 < minChildLen`
guard, so `left + right ≤ minChildLen` always, and whenever the prefix trim
stops before exhausting the shorter children list, at least one normalized
unit remains in each middle diff slice. -/
theorem trim_no_overlap (oldC newC : List NChild) :
    prefixTrimLen oldC newC
      + suffixTrimLen (min oldC.length newC.length - prefixTrimLen oldC newC - 1)
          oldC.reverse newC.reverse
      ≤ min oldC.length newC.length
    ∧ (prefixTrimLen oldC newC < min oldC.length newC.length →
        prefixTrimLen oldC newC
          + suffixTrimLen (min oldC.length newC.length - prefixTrimLen oldC newC - 1)
              oldC.reverse newC.reverse
          < min oldC.length newC.length
        ∧ (oldC.drop (prefixTrimLen oldC newC)).take
            (oldC.length
              - suffixTrimLen (min oldC.length newC.length - prefixTrimLen oldC newC - 1)
                  oldC.reverse newC.reverse
              - prefixTrimLen oldC newC) ≠ []
        ∧ (newC.drop (prefixTrimLen oldC newC)).take
            (newC.length
              - suffixTrimLen (min oldC.length newC.length - prefixTrimLen oldC newC - 1)
                  oldC.reverse newC.reverse
              - prefixTrimLen oldC newC) ≠ []) := by
  have hp := prefixTrimLen_le oldC newC
  have hs := suffixTrimLen_le (min oldC.length newC.length - prefixTrimLen oldC newC - 1)
    oldC.reverse newC.reverse
  constructor
  · omega
  · intro hlt
    refine ⟨by omega, ?_, ?_⟩
    · intro hnil
      have := congrArg List.length hnil
      simp [List.length_take, List.length_drop] at this
      omega
    · intro hnil
      have := congrArg List.length hnil
      simp [List.length_take, List.length_drop] at this
      omega

/-- Witness for C8: prefix trim stops at index 0 on two singleton lists of
unequal units, and one unit remains in each middle slice. -/
theorem trim_no_overlap_witness :
    prefixTrimLen [NChild.single (PNode.mk "a" [] [] none [])]
        [NChild.single (PNode.mk "b" [] [] none [])]
      < min [NChild.single (PNode.mk "a" [] [] none [])].length
          [NChild.single (PNode.mk "b" [] [] none [])].length
    ∧ ([NChild.single (PNode.mk "a" [] [] none [])].drop
        (prefixTrimLen [NChild.single (PNode.mk "a" [] [] none [])]
          [NChild.single (PNode.mk "b" [] [] none [])])).take 1 ≠ [] := by
  have hlt : prefixTrimLen [NChild.single (PNode.mk "a" [] [] none [])]
      [NChild.single (PNode.mk "b" [] [] none [])]
      < min [NChild.single (PNode.mk "a" [] [] none [])].length
          [NChild.single (PNode.mk "b" [] [] none [])].length := by
    rw [prefixTrimLen]
    simp [isNodeEqual, isPNodeEqual]
  have h2 := ((trim_no_overlap [NChild.single (PNode.mk "a" [] [] none [])]
    [NChild.single (PNode.mk "b" [] [] none [])]).2 hlt).2.1
  refine ⟨hlt, ?_⟩
  intro hc
  apply h2
  have hpre : prefixTrimLen [NChild.single (PNode.mk "a" [] [] none [])]
      [NChild.single (PNode.mk "b" [] [] none [])] = 0 := by
    rw [prefixTrimLen]
    simp [isNodeEqual, isPNodeEqual]
  rw [hpre] at hc ⊢
  simpa [suffixTrimLen] using hc

/-! ## C6: neutral equality factor, left preference, loop progress -/

/-- C6: `computeChildEqualityFactor` returns the neutral score 0 on all
inputs; when the left and the right residual pairs are both updatable the loop
deterministically patches the left pair and demotes the right one; and every
iteration of the loop on two non-empty windows recurses on the windows
shortened at the front or at the back, so the walk always makes forward
progress and `patchRemainLoop` is a total function. -/
theorem equality_factor_left_preference
    (o1 n1 : PNode) (ot nt : List NChild)
    (hL : (!(NChild.isText (NChild.single o1))
        && matchNodeType (NChild.single o1) (NChild.single n1)) = true)
    (hR : (!(NChild.isText (ot.getLastD (NChild.single o1)))
        && matchNodeType (ot.getLastD (NChild.single o1))
            (nt.getLastD (NChild.single n1))) = true) :
    (∀ a b, computeChildEqualityFactor a b = 0)
    ∧ patchRemainLoop (NChild.single o1 :: ot) (NChild.single n1 :: nt)
      = ([patchDocumentNodeCore o1 n1] ++ (patchRemainLoop ot nt).1,
         (patchRemainLoop ot nt).2)
    ∧ (∀ (lo ln : NChild) (ot' nt' : List NChild), ∃ eL L R eR,
        patchRemainLoop (lo :: ot') (ln :: nt') = (eL ++ L, R ++ eR)
        ∧ ((L, R) = patchRemainLoop ot' nt'
            ∨ (L, R) = patchRemainLoop ((lo :: ot').dropLast) ((ln :: nt').dropLast))) := by
  refine ⟨fun a b => rfl, ?_, ?_⟩
  · rw [patchRemainLoop]
    simp only [asGroup, hL, hR, computeChildEqualityFactor, Bool.and_self, if_true]
    simp [asSingle]
  · intro lo ln ot' nt'
    rw [patchRemainLoop]
    cases lo with
    | group g1 =>
      cases ln with
      | group g2 =>
        simp only [asGroup]
        exact ⟨patchTextNodes g1 g2, (patchRemainLoop ot' nt').1,
          (patchRemainLoop ot' nt').2, [], by simp, Or.inl rfl⟩
      | single n =>
        simp only [asGroup, asSingle, NChild.isText, matchNodeType, Bool.not_false,
          Bool.true_and, Bool.and_false, Bool.false_and, Bool.false_eq_true, if_false,
          Bool.not_true]
        split
        · exact ⟨[], _, _, _, rfl, Or.inr rfl⟩
        · exact ⟨[createDiffNode n DiffInserted], (patchRemainLoop ot' nt').1,
            (patchRemainLoop ot' nt').2, [], by simp, Or.inl rfl⟩
    | single o =>
      cases ln with
      | group g2 =>
        simp only [asGroup, asSingle, NChild.isText, matchNodeType, Bool.not_false,
          Bool.true_and, Bool.and_false, Bool.false_and, Bool.false_eq_true, if_false,
          Bool.not_true]
        split
        · exact ⟨[], _, _, _, rfl, Or.inr rfl⟩
        · exact ⟨[createDiffNode o DiffDeleted], (patchRemainLoop ot' nt').1,
            (patchRemainLoop ot' nt').2, [], by simp, Or.inl rfl⟩
      | single n =>
        simp only [asGroup, asSingle]
        split
        · next htie =>
          simp only [computeChildEqualityFactor, lt_irrefl, if_false]
          have huL : (!(NChild.single o).isText
              && matchNodeType (NChild.single o) (NChild.single n)) = true :=
            (Bool.and_eq_true .. |>.mp htie).1
          simp only [huL, if_true]
          exact ⟨[patchDocumentNodeCore o n], (patchRemainLoop ot' nt').1,
            (patchRemainLoop ot' nt').2, [], by simp, Or.inl rfl⟩
        · split
          · exact ⟨[patchDocumentNodeCore o n], (patchRemainLoop ot' nt').1,
              (patchRemainLoop ot' nt').2, [], by simp, Or.inl rfl⟩
          · split
            · exact ⟨[], _, _, _, rfl, Or.inr rfl⟩
            · exact ⟨[createDiffNode o DiffDeleted, createDiffNode n DiffInserted],
                (patchRemainLoop ot' nt').1, (patchRemainLoop ot' nt').2, [],
                by simp, Or.inl rfl⟩

/-- Witness for C6: both pairs updatable on singleton windows (the left and
right pairs coincide), so the left pair is patched. -/
theorem equality_factor_left_preference_witness :
    patchRemainLoop [NChild.single (PNode.mk "paragraph" [] [] none [])]
        [NChild.single (PNode.mk "paragraph" [] [] none [])]
      = ([patchDocumentNodeCore (PNode.mk "paragraph" [] [] none [])
            (PNode.mk "paragraph" [] [] none [])]
          ++ (patchRemainLoop [] []).1, (patchRemainLoop [] []).2) :=
  (equality_factor_left_preference (PNode.mk "paragraph" [] [] none [])
    (PNode.mk "paragraph" [] [] none []) [] [] (by decide) (by decide)).2.1

/-! ## C10: the delete+insert fallback emits only single nodes -/

/-- C10: in the residual walk, when the left pair mixes a text-run group and a
single node and the right pair is not updatable, the delete+insert branch emits
only the single-node operand (annotated), while the group side is consumed
without being emitted at all — its text leaves appear nowhere in the output. -/
theorem delete_insert_drops_groups :
    (∀ (g : List PNode) (nd : PNode) (ot nt : List NChild),
      (!(NChild.isText (ot.getLastD (NChild.group g)))
        && matchNodeType (ot.getLastD (NChild.group g))
            (nt.getLastD (NChild.single nd))) = false →
      patchRemainLoop (NChild.group g :: ot) (NChild.single nd :: nt)
        = ([createDiffNode nd DiffInserted] ++ (patchRemainLoop ot nt).1,
           (patchRemainLoop ot nt).2))
    ∧ (∀ (od : PNode) (g : List PNode) (ot nt : List NChild),
      (!(NChild.isText (ot.getLastD (NChild.single od)))
        && matchNodeType (ot.getLastD (NChild.single od))
            (nt.getLastD (NChild.group g))) = false →
      patchRemainLoop (NChild.single od :: ot) (NChild.group g :: nt)
        = ([createDiffNode od DiffDeleted] ++ (patchRemainLoop ot nt).1,
           (patchRemainLoop ot nt).2)) := by
  constructor
  · intro g nd ot nt hR
    rw [patchRemainLoop]
    have e2 : matchNodeType (NChild.group g) (NChild.single nd) = false := rfl
    simp only [asGroup, asSingle, e2, Bool.and_false, Bool.false_and,
      Bool.false_eq_true, if_false, hR]
    simp
  · intro od g ot nt hR
    rw [patchRemainLoop]
    have e2 : matchNodeType (NChild.single od) (NChild.group g) = false := rfl
    simp only [asGroup, asSingle, e2, Bool.and_false, Bool.false_and,
      Bool.false_eq_true, if_false, hR]
    simp

/-- Witness for C10: a one-leaf text run against an `hr` node; the output of
the iteration is just the inserted `hr`, the text leaf is dropped. -/
theorem delete_insert_drops_groups_witness :
    patchRemainLoop [NChild.group [PNode.mk "text" [] [] (some "x.") []]]
        [NChild.single (PNode.mk "hr" [] [] none [])]
      = ([createDiffNode (PNode.mk "hr" [] [] none []) DiffInserted]
          ++ (patchRemainLoop [] []).1, (patchRemainLoop [] []).2) :=
  delete_insert_drops_groups.1 [PNode.mk "text" [] [] (some "x.") []]
    (PNode.mk "hr" [] [] none []) [] [] (by decide)

/-! ## C2: coverage of old-only/new-only/unchanged leaves (code bug) -/

/-- C2 (evaluation at the failing input): diffing `paragraph[text "x."]`
against `paragraph[hr]` reaches the delete+insert fallback with a text-run
group on the old side; the group operand fails the `instanceof` check and is
silently dropped, so the merged tree is just `paragraph[hr]` — the old-only
leaf "x." appears nowhere wrapped as Deleted (and the inserted `hr`, having no
text leaves, carries no mark either), contradicting the claimed coverage. -/
theorem coverage_failure_eval :
    patchDocumentNode
        (PNode.mk "paragraph" [] [] none [PNode.mk "text" [] [] (some "x.") []])
        (PNode.mk "paragraph" [] [] none [PNode.mk "hr" [] [] none []])
      = Except.ok (PNode.mk "paragraph" [] [] none [PNode.mk "hr" [] [] none []]) := by
  simp [patchDocumentNode, assertNodeTypeEqual, patchDocumentNodeCore, patchRemainNodes,
    patchRemainLoop, normalizeNodeContent, normalizeGo, getNodeChildren,
    PNode.childrenL, PNode.typeName, isTextNode, prefixTrimLen, suffixTrimLen,
    isNodeEqual, isPNodeEqual, isChildrenEqual, bestMatchOf, sortMatchesByCount,
    matchNodes, matchNodesGo, findMatchNode, asGroup, asSingle, NChild.isText,
    matchNodeType, computeChildEqualityFactor, createNewNode, createDiffNode,
    mapDocumentNode, mapChildren, createTextNode, getNodeText, getNodeMarks,
    PNode.marksL, PNode.textOpt, PNode.attrsL, ensureArray, attrsEqual, marksEqual,
    getAttr, DiffInserted, DiffDeleted, DiffUnchanged]

/-! ## C7: the diff annotator is a mark-appending deep copy -/

theorem createDiffNode_WF_aux (t : Int) :
    (∀ node, WF node = true → createDiffNode node t = specAnnotate t node)
    ∧ (∀ cs, WFL cs = true →
        mapChildren (fun cur => if isTextNode cur then
          some (createTextNode (getNodeText cur) (getNodeMarks cur ++ [diffMark t]))
          else none) cs = specAnnotateL t cs) := by
  refine pnode_induction _ _ ?_ ?_ ?_
  · intro ty a m x cs ih hwf
    rw [WF] at hwf
    rw [createDiffNode, mapDocumentNode]
    by_cases hty : ty = "text"
    · subst hty
      simp only [if_true] at hwf
      simp only [Bool.and_eq_true, decide_eq_true_eq, List.isEmpty_iff,
        Option.isSome_iff_exists] at hwf
      obtain ⟨⟨ha, hcs⟩, s, hx⟩ := hwf
      subst ha hcs hx
      rw [mapChildren]
      rw [specAnnotate]
      simp [isTextNode, PNode.typeName, createTextNode, getNodeText, getNodeMarks,
        PNode.marksL, PNode.textOpt]
    · simp only [hty, if_false, Bool.and_eq_true] at hwf
      have hmap := ih hwf.2
      rw [hmap]
      rw [specAnnotate]
      simp only [hty, if_false]
      have hnt : isTextNode (PNode.mk ty a m x (specAnnotateL t cs)) = false := by
        simp [isTextNode, PNode.typeName, hty]
      simp [hnt]
  · intro _
    rfl
  · intro c cs ih1 ih2 hwf
    rw [WFL] at hwf
    simp only [Bool.and_eq_true] at hwf
    rw [mapChildren, specAnnotateL]
    have h1 := ih1 hwf.1
    rw [createDiffNode] at h1
    rw [h1, ih2 hwf.2]

/-- C7: for a well-formed node and an `Inserted`/`Deleted` annotation, the
checked mark constructor succeeds with the diff mark, and `createDiffNode`
coincides with the spec's annotator: a deep copy in which every text leaf
carries its original mark list with the diff mark appended at the end and
every non-text node is copied structurally unchanged apart from its
descendants. -/
theorem createDiffNode_annotates (node : PNode) (t : Int) (hwf : WF node = true)
    (ht : t = DiffInserted ∨ t = DiffDeleted) :
    createDiffMark t = some (diffMark t)
    ∧ createDiffNode node t = specAnnotate t node := by
  refine ⟨?_, (createDiffNode_WF_aux t).1 node hwf⟩
  rcases ht with h | h <;> simp [createDiffMark, h, DiffInserted, DiffDeleted]

/-- Witness for C7 on `paragraph[text "hi" [em]]` with the `Inserted`
annotation. -/
theorem createDiffNode_annotates_witness :
    createDiffMark DiffInserted = some (diffMark DiffInserted)
    ∧ createDiffNode
        (PNode.mk "paragraph" [] [] none
          [PNode.mk "text" [] [⟨"em", []⟩] (some "hi") []]) DiffInserted
      = specAnnotate DiffInserted
        (PNode.mk "paragraph" [] [] none
          [PNode.mk "text" [] [⟨"em", []⟩] (some "hi") []]) :=
  createDiffNode_annotates
    (PNode.mk "paragraph" [] [] none [PNode.mk "text" [] [⟨"em", []⟩] (some "hi") []])
    DiffInserted (by decide) (Or.inl rfl)

/-! ## C3: sentence-diff round-trip -/

theorem commonPrefix_append_left (a b : List Nat) :
    commonPrefix a b ++ a.drop (commonPrefix a b).length = a := by
  induction a generalizing b with
  | nil => cases b <;> simp [commonPrefix]
  | cons x xs ih =>
    cases b with
    | nil => simp [commonPrefix]
    | cons y ys =>
      rw [commonPrefix]
      split
      · simp only [List.length_cons, List.drop_succ_cons, List.cons_append,
          List.cons.injEq, true_and]
        exact ih ys
      · simp

theorem commonPrefix_append_right (a b : List Nat) :
    commonPrefix a b ++ b.drop (commonPrefix a b).length = b := by
  induction a generalizing b with
  | nil => cases b <;> simp [commonPrefix]
  | cons x xs ih =>
    cases b with
    | nil => simp [commonPrefix]
    | cons y ys =>
      rw [commonPrefix]
      split
      · next hxy =>
        subst hxy
        simp only [List.length_cons, List.drop_succ_cons, List.cons_append,
          List.cons.injEq, true_and]
        exact ih ys
      · simp

theorem diff_seg_keep (t K : Int) (l : List Nat) (ht : t ≠ K) :
    ((if l.isEmpty = true then ([] : List (Int × List Nat)) else [(t, l)]).filter
      (fun s => decide (s.1 ≠ K))).flatMap Prod.snd = l := by
  split
  · next h => simp [List.isEmpty_iff.mp h]
  · simp [ht]

theorem diff_seg_drop (K : Int) (l : List Nat) :
    ((if l.isEmpty = true then ([] : List (Int × List Nat)) else [(K, l)]).filter
      (fun s => decide (s.1 ≠ K))).flatMap Prod.snd = [] := by
  split <;> simp

theorem diffMain_old_side (a b : List Nat) :
    ((diffMain a b).filter (fun s => decide (s.1 ≠ DiffInserted))).flatMap Prod.snd
      = a := by
  rw [diffMain]
  simp only [List.filter_append, List.flatMap_append]
  rw [diff_seg_keep _ _ _ (by decide), diff_seg_keep _ _ _ (by decide), diff_seg_drop]
  simpa using commonPrefix_append_left a b

theorem diffMain_new_side (a b : List Nat) :
    ((diffMain a b).filter (fun s => decide (s.1 ≠ DiffDeleted))).flatMap Prod.snd
      = b := by
  rw [diffMain]
  simp only [List.filter_append, List.flatMap_append]
  rw [diff_seg_keep _ _ _ (by decide), diff_seg_drop, diff_seg_keep _ _ _ (by decide)]
  simpa using commonPrefix_append_right a b

theorem indexOfStr_some :
    ∀ {l : List String} {s : String} {i : Nat},
      indexOfStr l s = some i → i < l.length ∧ l.getD i "" = s := by
  intro l
  induction l with
  | nil => intro s i h; simp [indexOfStr] at h
  | cons t rest ih =>
    intro s i h
    rw [indexOfStr] at h
    split at h
    · next heq =>
      cases h
      simpa using heq
    · cases hrec : indexOfStr rest s with
      | none => rw [hrec] at h; simp at h
      | some j =>
        rw [hrec] at h
        simp at h
        obtain ⟨hj, hg⟩ := ih hrec
        subst h
        refine ⟨by simpa using Nat.succ_lt_succ hj, ?_⟩
        simpa [List.getD_cons_succ] using hg

theorem internSentences_cons_some {arr : List String} {s : String} {i : Nat}
    {rest : List String} (h : indexOfStr arr s = some i) :
    internSentences arr (s :: rest)
      = ((internSentences arr rest).1,
         (i % 65536) :: (internSentences arr rest).2) := by
  rw [internSentences, h]

theorem internSentences_cons_none {arr : List String} {s : String}
    {rest : List String} (h : indexOfStr arr s = none) :
    internSentences arr (s :: rest)
      = ((internSentences (arr ++ [s]) rest).1,
         (arr.length % 65536) :: (internSentences (arr ++ [s]) rest).2) := by
  rw [internSentences, h]

theorem internSentences_extends (l : List String) :
    ∀ arr, ∃ ext, (internSentences arr l).1 = arr ++ ext := by
  induction l with
  | nil => intro arr; exact ⟨[], by simp [internSentences]⟩
  | cons s rest ih =>
    intro arr
    cases hidx : indexOfStr arr s with
    | some i =>
      rw [internSentences_cons_some hidx]
      exact ih arr
    | none =>
      rw [internSentences_cons_none hidx]
      obtain ⟨ext, hext⟩ := ih (arr ++ [s])
      exact ⟨[s] ++ ext, by rw [hext, List.append_assoc]⟩

theorem internSentences_length (l : List String) :
    ∀ arr, (internSentences arr l).1.length ≤ arr.length + l.length := by
  induction l with
  | nil => intro arr; simp [internSentences]
  | cons s rest ih =>
    intro arr
    cases hidx : indexOfStr arr s with
    | some i =>
      rw [internSentences_cons_some hidx]
      have := ih arr
      simp only [List.length_cons]
      omega
    | none =>
      rw [internSentences_cons_none hidx]
      have := ih (arr ++ [s])
      simp only [List.length_append, List.length_cons, List.length_nil,
        List.length_singleton] at this ⊢
      omega

theorem internSentences_codes (l : List String) :
    ∀ arr, List.Forall₂
      (fun s c => ∃ i, c = i % 65536 ∧ i < (internSentences arr l).1.length
        ∧ (internSentences arr l).1.getD i "" = s) l (internSentences arr l).2 := by
  induction l with
  | nil => intro arr; simp [internSentences]
  | cons s rest ih =>
    intro arr
    cases hidx : indexOfStr arr s with
    | some i =>
      rw [internSentences_cons_some hidx]
      obtain ⟨hlt, hget⟩ := indexOfStr_some hidx
      obtain ⟨ext, hext⟩ := internSentences_extends rest arr
      constructor
      · refine ⟨i, rfl, ?_, ?_⟩
        · rw [hext]
          simp only [List.length_append]
          omega
        · rw [hext, List.getD_append _ _ _ _ hlt]
          exact hget
      · exact ih arr
    | none =>
      rw [internSentences_cons_none hidx]
      obtain ⟨ext, hext⟩ := internSentences_extends rest (arr ++ [s])
      constructor
      · refine ⟨arr.length, rfl, ?_, ?_⟩
        · rw [hext]
          simp only [List.length_append, List.length_singleton]
          omega
        · rw [hext, List.getD_append _ _ _ _ (by simp)]
          rw [List.getD_append_right _ _ _ _ (Nat.le_refl _)]
          simp
      · exact ih (arr ++ [s])

theorem internSentences_lookup (l : List String) (arr : List String)
    (h : (internSentences arr l).1.length ≤ 65536) :
    List.Forall₂ (fun s c => (internSentences arr l).1.getD c "" = s)
      l (internSentences arr l).2 := by
  refine (internSentences_codes l arr).imp ?_
  rintro s c ⟨i, hc, hlt, hget⟩
  rw [hc, Nat.mod_eq_of_lt (Nat.lt_of_lt_of_le hlt h)]
  exact hget

theorem sentencesToChars_eq (olds news : List String) :
    sentencesToChars olds news
      = ⟨(internSentences [] olds).2,
         (internSentences (internSentences [] olds).1 news).2,
         (internSentences (internSentences [] olds).1 news).1⟩ := rfl

theorem sentencesToChars_lookup (olds news : List String)
    (h : olds.length + news.length ≤ 65536) :
    List.Forall₂
      (fun s c => (sentencesToChars olds news).lineArray.getD c "" = s)
      olds (sentencesToChars olds news).chars1
    ∧ List.Forall₂
      (fun s c => (sentencesToChars olds news).lineArray.getD c "" = s)
      news (sentencesToChars olds news).chars2 := by
  have hlen1 : (internSentences [] olds).1.length ≤ olds.length := by
    simpa using internSentences_length olds []
  have hlen2 : (internSentences (internSentences [] olds).1 news).1.length
      ≤ olds.length + news.length := by
    have := internSentences_length news (internSentences [] olds).1
    omega
  obtain ⟨ext, hext⟩ := internSentences_extends news (internSentences [] olds).1
  rw [sentencesToChars_eq]
  constructor
  · refine (internSentences_codes olds []).imp ?_
    rintro s c ⟨i, hc, hlt, hget⟩
    have hi : i < 65536 := by omega
    rw [hc, Nat.mod_eq_of_lt hi]
    show (internSentences (internSentences [] olds).1 news).1.getD i "" = s
    rw [hext, List.getD_append _ _ _ _ hlt]
    exact hget
  · exact internSentences_lookup news (internSentences [] olds).1 (by omega)

theorem expand_codes (arr : List String) :
    ∀ {l : List String} {cs : List Nat},
      List.Forall₂ (fun s c => arr.getD c "" = s) l cs →
      (∀ s ∈ l, s ≠ "") →
      (cs.map (fun c => arr.getD c "")).filter (fun s => decide (s ≠ "")) = l := by
  intro l cs h
  induction h with
  | nil => intro _; rfl
  | cons hsc hrest ih =>
    intro hne
    rename_i s c l2 cs2
    have hs : s ≠ "" := hne s (by simp)
    simp only [List.map_cons, List.filter_cons, hsc]
    rw [if_pos (decide_eq_true hs), ih (fun x hx => hne x (by simp [hx]))]

theorem expand_flatMap (arr : List String) (segs : List (Int × List Nat)) :
    segs.flatMap (fun td =>
        (td.2.map (fun c => arr.getD c "")).filter (fun s => decide (s ≠ "")))
      = ((segs.flatMap Prod.snd).map (fun c => arr.getD c "")).filter
          (fun s => decide (s ≠ "")) := by
  induction segs with
  | nil => rfl
  | cons td rest ih =>
    simp only [List.flatMap_cons, List.map_append, List.filter_append, ih]

theorem diffAnnot_createTextNode (s : String) (t : Int) :
    diffAnnot (createTextNode s (if t ≠ DiffUnchanged then [diffMark t] else []))
      = t := by
  by_cases h : t = DiffUnchanged
  · simp [diffAnnot, createTextNode, getNodeMarks, PNode.marksL, h]
  · simp [diffAnnot, createTextNode, getNodeMarks, PNode.marksL, h, diffMark,
      getAttr, List.find?]

theorem getNodeText_createTextNode (s : String) (marks : List PMark) :
    getNodeText (createTextNode s marks) = s := rfl

theorem textNodes_filter_map (K : Int) :
    ∀ (segs : List (Int × List String)),
      (((segs.flatMap (fun ts => ts.2.map (fun sentence =>
          createTextNode sentence
            (if ts.1 ≠ DiffUnchanged then [diffMark ts.1] else [])))).filter
        (fun nd => decide (diffAnnot nd ≠ K))).map getNodeText)
      = (segs.filter (fun ts => decide (ts.1 ≠ K))).flatMap Prod.snd := by
  intro segs
  induction segs with
  | nil => rfl
  | cons ts rest ih =>
    simp only [List.flatMap_cons, List.filter_append, List.map_append, ih,
      List.filter_cons]
    by_cases hK : ts.1 ≠ K
    · have hfilter : (ts.2.map (fun sentence => createTextNode sentence
            (if ts.1 ≠ DiffUnchanged then [diffMark ts.1] else []))).filter
          (fun nd => decide (diffAnnot nd ≠ K))
          = ts.2.map (fun sentence => createTextNode sentence
            (if ts.1 ≠ DiffUnchanged then [diffMark ts.1] else [])) := by
        rw [List.filter_eq_self]
        intro nd hnd
        obtain ⟨s, _, hmk⟩ := List.mem_map.mp hnd
        rw [← hmk, decide_eq_true_eq, diffAnnot_createTextNode]
        exact hK
      rw [hfilter, if_pos (decide_eq_true hK), List.flatMap_cons]
      congr 1
      rw [List.map_map]
      have hid : ∀ (l : List String),
          List.map (getNodeText ∘ fun sentence => createTextNode sentence
            (if ts.1 ≠ DiffUnchanged then [diffMark ts.1] else [])) l = l := by
        intro l
        induction l with
        | nil => rfl
        | cons x xs ihx =>
          simp only [List.map_cons, ihx]
          rfl
      exact hid ts.2
    · have hfilter : (ts.2.map (fun sentence => createTextNode sentence
            (if ts.1 ≠ DiffUnchanged then [diffMark ts.1] else []))).filter
          (fun nd => decide (diffAnnot nd ≠ K)) = [] := by
        rw [List.filter_eq_nil_iff]
        intro nd hnd
        obtain ⟨s, _, hmk⟩ := List.mem_map.mp hnd
        rw [← hmk]
        intro hcon
        have hval := of_decide_eq_true hcon
        rw [diffAnnot_createTextNode] at hval
        exact hK hval
      rw [hfilter]
      rw [if_neg (fun hcon => hK (of_decide_eq_true hcon))]
      simp

theorem tokenizeSentences_ne_empty (text : String) :
    ∀ s ∈ tokenizeSentences text, s ≠ "" := by
  intro s hs
  rw [tokenizeSentences] at hs
  have := List.of_mem_filter hs
  simp only [Bool.not_eq_true'] at this
  intro hcon
  rw [hcon] at this
  exact absurd this (by decide)

theorem patchText_key (arr : List String) (rawDiffs : List (Int × List Nat)) (K : Int) :
    (((rawDiffs.map (fun td => ((td.1 : Int),
        (td.2.map (fun c => arr.getD c "")).filter (fun s => decide (s ≠ ""))))).flatMap
        (fun ts => ts.2.map (fun sentence => createTextNode sentence
          (if ts.1 ≠ DiffUnchanged then [diffMark ts.1] else [])))).filter
      (fun nd => decide (diffAnnot nd ≠ K))).map getNodeText
    = (((rawDiffs.filter (fun s => decide (s.1 ≠ K))).flatMap Prod.snd).map
        (fun c => arr.getD c "")).filter (fun s => decide (s ≠ "")) := by
  rw [textNodes_filter_map, List.filter_map]
  rw [show ((fun (ts : Int × List String) => decide (ts.1 ≠ K)) ∘
      (fun td : Int × List Nat => ((td.1 : Int),
        (td.2.map (fun c => arr.getD c "")).filter (fun s => decide (s ≠ "")))))
      = (fun td : Int × List Nat => decide (td.1 ≠ K)) from funext (fun td => rfl)]
  rw [List.flatMap_map]
  exact expand_flatMap arr _

/-- C3 (amended): whenever the sentence tokenizer exactly partitions each
side's concatenated text (its matches concatenate back to the full string) and
the two sentence lists fit in the 2^16 code-unit range of the interning trick,
the Text Diff Engine round-trips: keeping `Unchanged`/`Deleted` leaves
reconstructs the old text and keeping `Unchanged`/`Inserted` leaves
reconstructs the new text. -/
theorem patchTextNodes_roundtrip (olds news : List PNode)
    (hOld : String.join (tokenizeSentences (String.join (olds.map getNodeText)))
        = String.join (olds.map getNodeText))
    (hNew : String.join (tokenizeSentences (String.join (news.map getNodeText)))
        = String.join (news.map getNodeText))
    (hsize : (tokenizeSentences (String.join (olds.map getNodeText))).length
        + (tokenizeSentences (String.join (news.map getNodeText))).length ≤ 65536) :
    String.join (((patchTextNodes olds news).filter
        (fun nd => decide (diffAnnot nd ≠ DiffInserted))).map getNodeText)
      = String.join (olds.map getNodeText)
    ∧ String.join (((patchTextNodes olds news).filter
        (fun nd => decide (diffAnnot nd ≠ DiffDeleted))).map getNodeText)
      = String.join (news.map getNodeText) := by
  obtain ⟨hlook1, hlook2⟩ := sentencesToChars_lookup
    (tokenizeSentences (String.join (olds.map getNodeText)))
    (tokenizeSentences (String.join (news.map getNodeText))) hsize
  constructor
  · simp only [patchTextNodes]
    rw [patchText_key, diffMain_old_side]
    rw [expand_codes _ hlook1 (tokenizeSentences_ne_empty _)]
    exact hOld
  · simp only [patchTextNodes]
    rw [patchText_key, diffMain_new_side]
    rw [expand_codes _ hlook2 (tokenizeSentences_ne_empty _)]
    exact hNew

/-- C3 counterexample: the tokenizer drops punctuation-only text (`"..."`
yields no sentences), so for the text runs `["a"]` (old) and `["..."]` (new)
the Unchanged/Inserted leaves concatenate to `""`, not to the new side's text
`"..."` — the round-trip claim fails without the amendment's hypotheses. -/
theorem sentence_roundtrip_counterexample :
    ¬ (String.join (((patchTextNodes [PNode.mk "text" [] [] (some "a") []]
          [PNode.mk "text" [] [] (some "...") []]).filter
        (fun nd => decide (diffAnnot nd ≠ DiffDeleted))).map getNodeText)
      = String.join ([PNode.mk "text" [] [] (some "...") []].map getNodeText)) := by
  decide

/-- Witness for the amended C3 on `"Hi. "` versus `"Hi. Bye."`. -/
theorem patchTextNodes_roundtrip_witness :
    String.join (((patchTextNodes [PNode.mk "text" [] [] (some "Hi. ") []]
          [PNode.mk "text" [] [] (some "Hi. Bye.") []]).filter
        (fun nd => decide (diffAnnot nd ≠ DiffInserted))).map getNodeText)
      = String.join ([PNode.mk "text" [] [] (some "Hi. ") []].map getNodeText)
    ∧ String.join (((patchTextNodes [PNode.mk "text" [] [] (some "Hi. ") []]
          [PNode.mk "text" [] [] (some "Hi. Bye.") []]).filter
        (fun nd => decide (diffAnnot nd ≠ DiffDeleted))).map getNodeText)
      = String.join ([PNode.mk "text" [] [] (some "Hi. Bye.") []].map getNodeText) :=
  patchTextNodes_roundtrip [PNode.mk "text" [] [] (some "Hi. ") []]
    [PNode.mk "text" [] [] (some "Hi. Bye.") []]
    (by decide) (by decide) (by decide)

/-! ## C4: the greedy matcher and the best-match selection -/

theorem getD_drop_nchild (l : List NChild) (i j : Nat) :
    (l.drop i).getD j default = l.getD (i + j) default := by
  simp [List.getD_eq_getElem?_getD, List.getElem?_drop]

theorem findMatchNode_some :
    ∀ {children : List NChild} {node : NChild} {i : Nat},
      findMatchNode children node = some i →
      i < children.length
      ∧ isNodeEqual (children.getD i default) node = true
      ∧ ∀ j < i, isNodeEqual (children.getD j default) node = false := by
  intro children
  induction children with
  | nil => intro node i h; simp [findMatchNode] at h
  | cons c cs ih =>
    intro node i h
    rw [findMatchNode] at h
    split at h
    · next heq =>
      cases h
      exact ⟨by simp, by simpa using heq, fun j hj => absurd hj (by omega)⟩
    · next hne =>
      cases hrec : findMatchNode cs node with
      | none => rw [hrec] at h; simp at h
      | some j =>
        rw [hrec] at h
        simp at h
        subst h
        obtain ⟨h1, h2, h3⟩ := ih hrec
        refine ⟨by simpa using Nat.succ_lt_succ h1,
          by simpa [List.getD_cons_succ] using h2, ?_⟩
        intro j' hj'
        cases j' with
        | zero =>
          simp only [List.getD_cons_zero]
          exact Bool.not_eq_true _ ▸ hne
        | succ k =>
          simp only [List.getD_cons_succ]
          exact h3 k (by omega)

theorem runLen_spec :
    ∀ (os ns : List NChild),
      runLen os ns ≤ os.length ∧ runLen os ns ≤ ns.length
      ∧ (∀ k < runLen os ns,
          isNodeEqual (ns.getD k default) (os.getD k default) = true)
      ∧ (runLen os ns = os.length ∨ runLen os ns = ns.length
          ∨ isNodeEqual (ns.getD (runLen os ns) default)
              (os.getD (runLen os ns) default) = false) := by
  intro os
  induction os with
  | nil =>
    intro ns
    refine ⟨by simp [runLen], by simp [runLen], ?_, ?_⟩
    · intro k hk
      rw [runLen] at hk
      omega
    · left
      simp [runLen]
  | cons o os ih =>
    intro ns
    cases ns with
    | nil =>
      refine ⟨by simp [runLen], by simp [runLen], ?_, ?_⟩
      · intro k hk
        rw [runLen] at hk
        omega
      · right; left
        simp [runLen]
    | cons n ns' =>
      rw [runLen]
      split
      · next heq =>
        obtain ⟨b1, b2, hall, hmax⟩ := ih ns'
        refine ⟨by simp only [List.length_cons]; omega,
          by simp only [List.length_cons]; omega, ?_, ?_⟩
        · intro k hk
          cases k with
          | zero => simpa using heq
          | succ k' =>
            simp only [List.getD_cons_succ]
            exact hall k' (by omega)
        · rcases hmax with h | h | h
          · left; simp [h]
          · right; left; simp [h]
          · right; right; simpa [List.getD_cons_succ] using h
      · next hne =>
        refine ⟨by simp, by simp, ?_, ?_⟩
        · intro k hk
          exact absurd hk (by omega)
        · right; right
          simp only [List.getD_cons_zero]
          exact Bool.not_eq_true _ ▸ hne

theorem matchNodesGo_mem (newC : List NChild) :
    ∀ (l : List NChild) (base : Nat) (m : MatchResult),
      m ∈ matchNodesGo newC l base →
      ∃ k, k < l.length ∧ m.oldStartIndex = base + k
        ∧ findMatchNode newC (l.getD k default) = some m.newStartIndex
        ∧ m.count = 1 + runLen (l.drop (k + 1)) (newC.drop (m.newStartIndex + 1))
        ∧ m.oldEndIndex = m.oldStartIndex + m.count
        ∧ m.newEndIndex = m.newStartIndex + m.count := by
  intro l
  induction l with
  | nil =>
    intro base m h
    simp [matchNodesGo] at h
  | cons o os ih =>
    intro base m h
    rw [matchNodesGo] at h
    cases hfind : findMatchNode newC o with
    | none =>
      rw [hfind] at h
      obtain ⟨k, hk, hosi, hf, hc, hoe, hne⟩ := ih (base + 1) m h
      refine ⟨k + 1, by simp only [List.length_cons]; omega, by omega, ?_, ?_, hoe, hne⟩
      · simpa [List.getD_cons_succ] using hf
      · simpa [List.drop_succ_cons] using hc
    | some ni =>
      rw [hfind] at h
      rcases List.mem_cons.mp h with hm | hm
      · subst hm
        refine ⟨0, by simp, by simp, ?_, ?_, ?_, ?_⟩
        · simpa using hfind
        · simp only [List.drop_succ_cons, List.drop_zero]
          omega
        · simp only []
          omega
        · simp only []
          omega
      · obtain ⟨k, hk, hosi, hf, hc, hoe, hne⟩ := ih (base + 1) m hm
        refine ⟨k + 1, by simp only [List.length_cons]; omega, by omega, ?_, ?_, hoe, hne⟩
        · simpa [List.getD_cons_succ] using hf
        · simpa [List.drop_succ_cons] using hc

theorem matchNodesGo_pairwise (newC : List NChild) :
    ∀ (l : List NChild) (base : Nat),
      (matchNodesGo newC l base).Pairwise
        (fun m1 m2 => m1.oldStartIndex < m2.oldStartIndex) := by
  have hbase : ∀ (l : List NChild) (base : Nat),
      ∀ m ∈ matchNodesGo newC l base, base ≤ m.oldStartIndex := by
    intro l
    induction l with
    | nil => intro base m h; simp [matchNodesGo] at h
    | cons o os ih =>
      intro base m h
      rw [matchNodesGo] at h
      cases hfind : findMatchNode newC o with
      | none =>
        rw [hfind] at h
        have := ih (base + 1) m h
        omega
      | some ni =>
        rw [hfind] at h
        rcases List.mem_cons.mp h with hm | hm
        · subst hm; exact Nat.le_refl _
        · have := ih (base + 1) m hm
          omega
  intro l
  induction l with
  | nil => intro base; simp [matchNodesGo]
  | cons o os ih =>
    intro base
    rw [matchNodesGo]
    cases hfind : findMatchNode newC o with
    | none => exact ih (base + 1)
    | some ni =>
      refine List.Pairwise.cons ?_ (ih (base + 1))
      intro m hm
      have := hbase os (base + 1) m hm
      simp only []
      omega

theorem sublist_pair_of_pairwise :
    ∀ {l : List MatchResult} {a b : MatchResult},
      l.Pairwise (fun m1 m2 => m1.oldStartIndex < m2.oldStartIndex) →
      a ∈ l → b ∈ l → a.oldStartIndex < b.oldStartIndex →
      [a, b].Sublist l := by
  intro l
  induction l with
  | nil => intro a b _ ha _ _; cases ha
  | cons x rest ih =>
    intro a b hp ha hb hab
    obtain ⟨hx, hrest⟩ := List.pairwise_cons.mp hp
    rcases List.mem_cons.mp ha with rfl | ha'
    · rcases List.mem_cons.mp hb with rfl | hb'
      · exact absurd hab (lt_irrefl _)
      · exact List.Sublist.cons₂ a (List.singleton_sublist.mpr hb')
    · rcases List.mem_cons.mp hb with rfl | hb'
      · have := hx a ha'
        omega
      · exact List.Sublist.cons x (ih hrest ha' hb' hab)

theorem matchNodes_pairwise (oldC newC : List NChild) :
    (matchNodes oldC newC).Pairwise
      (fun m1 m2 => m1.oldStartIndex < m2.oldStartIndex) := by
  rw [matchNodes]
  exact matchNodesGo_pairwise newC oldC 0

theorem bestMatchOf_spec (oldC newC : List NChild) (b : MatchResult)
    (h : bestMatchOf oldC newC = some b) :
    b ∈ matchNodes oldC newC
    ∧ (∀ m ∈ matchNodes oldC newC, m.count ≤ b.count)
    ∧ (∀ m ∈ matchNodes oldC newC, m.count = b.count →
        b.oldStartIndex ≤ m.oldStartIndex) := by
  have htrans : ∀ (a c d : MatchResult),
      (fun a c : MatchResult => decide (c.count ≤ a.count)) a c = true →
      (fun a c : MatchResult => decide (c.count ≤ a.count)) c d = true →
      (fun a c : MatchResult => decide (c.count ≤ a.count)) a d = true := by
    intro a c d h1 h2
    simp only [decide_eq_true_eq] at *
    omega
  have htotal : ∀ (a c : MatchResult),
      ((fun a c : MatchResult => decide (c.count ≤ a.count)) a c
        || (fun a c : MatchResult => decide (c.count ≤ a.count)) c a) = true := by
    intro a c
    simp only [Bool.or_eq_true, decide_eq_true_eq]
    omega
  rw [bestMatchOf] at h
  cases hsorted : sortMatchesByCount (matchNodes oldC newC) with
  | nil => rw [hsorted] at h; simp at h
  | cons hd tl =>
    rw [hsorted] at h
    simp only [List.head?_cons, Option.some.injEq] at h
    replace h := h.symm
    subst h
    have hperm : List.Perm (sortMatchesByCount (matchNodes oldC newC))
        (matchNodes oldC newC) :=
      List.mergeSort_perm _ _
    have hmem : b ∈ matchNodes oldC newC :=
      hperm.mem_iff.mp (by rw [hsorted]; exact List.mem_cons_self _ _)
    have hpw := @List.sorted_mergeSort MatchResult
      (fun a c : MatchResult => decide (c.count ≤ a.count))
      htrans htotal (matchNodes oldC newC)
    rw [show (matchNodes oldC newC).mergeSort
        (fun a c : MatchResult => decide (c.count ≤ a.count))
        = sortMatchesByCount (matchNodes oldC newC) from rfl, hsorted] at hpw
    refine ⟨hmem, ?_, ?_⟩
    · intro m hm
      have hmem2 : m ∈ sortMatchesByCount (matchNodes oldC newC) := hperm.mem_iff.mpr hm
      rw [hsorted] at hmem2
      rcases List.mem_cons.mp hmem2 with rfl | htl
      · exact Nat.le_refl _
      · have := (List.pairwise_cons.mp hpw).1 m htl
        simpa using this
    · intro m hm hcnt
      by_contra hlt
      push_neg at hlt
      have hmb : m ≠ b := by
        intro hcon
        rw [hcon] at hlt
        exact absurd hlt (lt_irrefl _)
      have hsub : [m, b].Sublist (matchNodes oldC newC) :=
        sublist_pair_of_pairwise (matchNodes_pairwise oldC newC) hm hmem hlt
      have hle : List.Pairwise (fun a c : MatchResult =>
          (fun a c : MatchResult => decide (c.count ≤ a.count)) a c = true) [m, b] := by
        refine List.pairwise_cons.mpr ⟨?_, by simp⟩
        intro c hc
        rcases List.mem_singleton.mp hc with rfl
        simp [hcnt]
      have hsub2 := List.sublist_mergeSort htrans htotal hle hsub
      rw [show (matchNodes oldC newC).mergeSort
          (fun a c : MatchResult => decide (c.count ≤ a.count))
          = sortMatchesByCount (matchNodes oldC newC) from rfl, hsorted] at hsub2
      have hnodup_ms : (matchNodes oldC newC).Nodup := by
        refine (matchNodes_pairwise oldC newC).imp ?_
        intro a c hac hcon
        rw [hcon] at hac
        exact absurd hac (lt_irrefl _)
      have hnodup_sorted : (b :: tl).Nodup := by
        rw [← hsorted]
        exact hperm.nodup_iff.mpr hnodup_ms
      cases hsub2 with
      | cons _ hskip =>
        have hbtl : b ∈ tl := hskip.subset (by simp)
        exact (List.nodup_cons.mp hnodup_sorted).1 hbtl
      | cons₂ _ _ => exact hmb rfl

/-- C4: every entry of `matchNodes` is the greedy run anchored at the first
new index structurally equal to its old start unit, extended while subsequent
units stay pairwise equal (and maximal); the best match the patcher selects
(`bestMatchOf`, the head of the stable count-descending sort) is a match of
greatest count, ties resolved in favour of the smallest `oldStartIndex`
(first-found); and the selection is deterministic. -/
theorem matcher_best_match (oldC newC : List NChild) :
    (∀ m ∈ matchNodes oldC newC,
      m.oldStartIndex < oldC.length
      ∧ m.newStartIndex < newC.length
      ∧ (∀ j < m.newStartIndex,
          isNodeEqual (newC.getD j default) (oldC.getD m.oldStartIndex default) = false)
      ∧ (∀ k < m.count, isNodeEqual (newC.getD (m.newStartIndex + k) default)
          (oldC.getD (m.oldStartIndex + k) default) = true)
      ∧ m.oldEndIndex = m.oldStartIndex + m.count
      ∧ m.newEndIndex = m.newStartIndex + m.count
      ∧ (m.oldEndIndex = oldC.length ∨ m.newEndIndex = newC.length
          ∨ isNodeEqual (newC.getD m.newEndIndex default)
              (oldC.getD m.oldEndIndex default) = false))
    ∧ (∀ b, bestMatchOf oldC newC = some b →
        b ∈ matchNodes oldC newC
        ∧ (∀ m ∈ matchNodes oldC newC, m.count ≤ b.count)
        ∧ (∀ m ∈ matchNodes oldC newC, m.count = b.count →
            b.oldStartIndex ≤ m.oldStartIndex))
    ∧ bestMatchOf oldC newC = bestMatchOf oldC newC := by
  refine ⟨?_, fun b hb => bestMatchOf_spec oldC newC b hb, rfl⟩
  intro m hm
  rw [matchNodes] at hm
  obtain ⟨k, hk, hosi, hf, hc, hoe, hne⟩ := matchNodesGo_mem newC oldC 0 m hm
  simp only [Nat.zero_add] at hosi
  subst hosi
  obtain ⟨hnlt, heq0, hfirst⟩ := findMatchNode_some hf
  obtain ⟨hb1, hb2, hall, hmax⟩ := runLen_spec (oldC.drop (m.oldStartIndex + 1))
    (newC.drop (m.newStartIndex + 1))
  refine ⟨hk, hnlt, hfirst, ?_, hoe, hne, ?_⟩
  · intro k' hk'
    cases k' with
    | zero => simpa using heq0
    | succ j =>
      have hj : j < runLen (oldC.drop (m.oldStartIndex + 1))
          (newC.drop (m.newStartIndex + 1)) := by omega
      have hstep := hall j hj
      rw [getD_drop_nchild, getD_drop_nchild] at hstep
      have e1 : m.newStartIndex + 1 + j = m.newStartIndex + (j + 1) := by omega
      have e2 : m.oldStartIndex + 1 + j = m.oldStartIndex + (j + 1) := by omega
      rw [e1, e2] at hstep
      exact hstep
  · rcases hmax with h | h | h
    · left
      rw [List.length_drop] at h
      omega
    · right; left
      rw [List.length_drop] at h
      omega
    · right; right
      rw [getD_drop_nchild, getD_drop_nchild] at h
      have e1 : m.newStartIndex + 1
          + runLen (oldC.drop (m.oldStartIndex + 1)) (newC.drop (m.newStartIndex + 1))
          = m.newEndIndex := by omega
      have e2 : m.oldStartIndex + 1
          + runLen (oldC.drop (m.oldStartIndex + 1)) (newC.drop (m.newStartIndex + 1))
          = m.oldEndIndex := by omega
      rw [e1, e2] at h
      exact h

/-- Witness for C4 on old units `[a, b]` against new units `[b]`: the single
match is the run at old index 1 / new index 0 of length 1, and it is the
selected best match. -/
theorem matcher_best_match_witness :
    (⟨1, 0, 2, 1, 1⟩ : MatchResult) ∈ matchNodes
        [NChild.single (PNode.mk "a" [] [] none []),
         NChild.single (PNode.mk "b" [] [] none [])]
        [NChild.single (PNode.mk "b" [] [] none [])]
    ∧ (∀ m ∈ matchNodes
        [NChild.single (PNode.mk "a" [] [] none []),
         NChild.single (PNode.mk "b" [] [] none [])]
        [NChild.single (PNode.mk "b" [] [] none [])],
        m.count ≤ (⟨1, 0, 2, 1, 1⟩ : MatchResult).count)
    ∧ (∀ m ∈ matchNodes
        [NChild.single (PNode.mk "a" [] [] none []),
         NChild.single (PNode.mk "b" [] [] none [])]
        [NChild.single (PNode.mk "b" [] [] none [])],
        m.count = (⟨1, 0, 2, 1, 1⟩ : MatchResult).count →
        (⟨1, 0, 2, 1, 1⟩ : MatchResult).oldStartIndex ≤ m.oldStartIndex) :=
  (matcher_best_match
    [NChild.single (PNode.mk "a" [] [] none []),
     NChild.single (PNode.mk "b" [] [] none [])]
    [NChild.single (PNode.mk "b" [] [] none [])]).2.1 ⟨1, 0, 2, 1, 1⟩
    (by
      rw [bestMatchOf, sortMatchesByCount,
        show matchNodes
          [NChild.single (PNode.mk "a" [] [] none []),
           NChild.single (PNode.mk "b" [] [] none [])]
          [NChild.single (PNode.mk "b" [] [] none [])]
          = [⟨1, 0, 2, 1, 1⟩] from by decide,
        List.mergeSort_singleton]
      rfl)

end ImprintDiff